import Mathlib

/-!
# DS_Hash.h : fixed-bucket-count chained hash map

Shallow embedding of `DataStructures::Hash<key_type, data_type, HASH_SIZE, hashFunction>`
from `src/include/raknet/DS_Hash.h`.

* A chain (`Node *` with its `next` links, terminated by the null pointer) is a
  `List (Node K V)`: the head of the list is the node the pointer designates, the
  tail is what `next` designates, `[]` is the null pointer.
* `Node **nodeList` is `Option (List (List (Node K V)))`: `none` is the null pointer,
  `some buckets` is the array made by `new Node *[HASH_SIZE]`.
* `size_t size` is a `Nat`. Every live node occupies distinct storage, so fewer than
  `2^64` nodes are ever live and `size++` does not wrap; `size--` is written `size - 1`.
* `key_type::operator==` is decidable equality on `K`.
* Member functions take the object as their first argument and return the new
  object next to their result. A call whose execution dereferences the null pointer
  or reads outside the bucket array has no defined outcome: functions that can do so
  return an `Option`, `none` standing for that case.
-/

namespace DataStructures

/-- The value `(size_t) -1` (64-bit `size_t`). -/
def SIZE_MAX : Nat := 18446744073709551615

/-- Embeds `struct HashIndex`. -/
structure HashIndex where
  /-- Bucket ordinal. -/
  primaryIndex : Nat
  /-- Ordinal within the chain of the bucket. -/
  secondaryIndex : Nat
deriving DecidableEq, Repr

/-- Embeds `HashIndex::IsInvalid`: `primaryIndex==(size_t) -1`. -/
def HashIndex.IsInvalid (i : HashIndex) : Bool :=
  i.primaryIndex == SIZE_MAX

/-- Embeds `HashIndex::SetInvalid`: both fields become `(size_t) -1`. -/
def HashIndex.SetInvalid (_i : HashIndex) : HashIndex :=
  ⟨SIZE_MAX, SIZE_MAX⟩

/-- Embeds `struct Hash::Node` without its `next` field, which is the tail of the
list the node heads. -/
structure Node (K V : Type) where
  /-- The key (`key_type string`). -/
  string : K
  /-- The value (`data_type data`). -/
  data : V
deriving DecidableEq, Repr

/-- Embeds the data members of `class Hash`. -/
structure Hash (K V : Type) where
  /-- The bucket array, `none` when the pointer is null. -/
  nodeList : Option (List (List (Node K V)))
  /-- The element counter. -/
  size : Nat
deriving DecidableEq, Repr

/-- Modelled from the spec: `DataStructures::List<T>` (DS_List.h), the ordered-sequence
container used as the output parameter shape of `GetAsList`. `Clear` empties the
sequence. -/
def ListClear {T : Type} (_l : List T) : List T := []

/-- Modelled from the spec: `DataStructures::List<T>::Push` (DS_List.h) appends one
element at the end of the ordered sequence. -/
def ListPush {T : Type} (l : List T) (x : T) : List T := l ++ [x]

section

variable {K V : Type} [DecidableEq K]
variable (HASH_SIZE : Nat) (hashFunction : K → Nat)

/-- Default constructor `Hash::Hash()`: `nodeList=0; size=0;`. -/
def Hash.ctor : Hash K V :=
  ⟨none, 0⟩

/-- The loop of `ClearIndex`: one `size--` for each node of the chain. -/
def Hash.ClearIndex.loop : List (Node K V) → Nat → Nat
  | [], size => size
  | _node :: next, size => Hash.ClearIndex.loop next (size - 1)

/-- Embeds `Hash::ClearIndex` on an allocated bucket array: frees the chain of bucket
`index` decrementing `size` once per node, then `nodeList[index]=0`. -/
def Hash.ClearIndex (nodeList : List (List (Node K V))) (size : Nat) (index : Nat) :
    List (List (Node K V)) × Nat :=
  (nodeList.set index [], Hash.ClearIndex.loop (nodeList.getD index []) size)

/-- Embeds `Hash::Push`. -/
def Hash.Push (s : Hash K V) (key : K) (input : V) : Hash K V :=
  let hashIndex := hashFunction key % HASH_SIZE
  let nodeList := match s.nodeList with
    | none => List.replicate HASH_SIZE []
    | some nodeList => nodeList
  let newNode : Node K V := ⟨key, input⟩
  ⟨some (nodeList.set hashIndex (newNode :: nodeList.getD hashIndex [])), s.size + 1⟩

/-- The `while (node!=0)` loop of `Peek`. -/
def Hash.Peek.loop (key : K) : List (Node K V) → Option V
  | [] => none
  | node :: next => if node.string = key then some node.data else Hash.Peek.loop key next

/-- Embeds `Hash::Peek`; the result is the value the returned pointer designates,
`none` for the null pointer. -/
def Hash.Peek (s : Hash K V) (key : K) : Option V :=
  match s.nodeList with
  | none => none
  | some nodeList =>
    let hashIndex := hashFunction key % HASH_SIZE
    Hash.Peek.loop key (nodeList.getD hashIndex [])

/-- The `while (node!=0)` loop of `Pop`, started at `node` (the successor of `last`):
`some (data, chain)` gives the data of the first node whose key is `key` and the chain
from `node` on with that node unlinked; `none` when the loop ends without a match. -/
def Hash.Pop.loop (key : K) : List (Node K V) → Option (V × List (Node K V))
  | [] => none
  | node :: next =>
    if node.string = key then some (node.data, next)
    else match Hash.Pop.loop key next with
      | none => none
      | some (out, chain) => some (out, node :: chain)

/-- Embeds `Hash::Pop`: the result is the returned boolean, the content of `out`
after the call, and the object after the call. -/
def Hash.Pop (s : Hash K V) (out : V) (key : K) : Bool × V × Hash K V :=
  match s.nodeList with
  | none => (false, out, s)
  | some nodeList =>
    let hashIndex := hashFunction key % HASH_SIZE
    match nodeList.getD hashIndex [] with
    | [] => (false, out, s)
    | [node] =>
      if node.string = key then
        let r := Hash.ClearIndex nodeList s.size hashIndex
        (true, node.data, ⟨some r.1, r.2⟩)
      else (false, out, s)
    | node :: next :: rest =>
      if node.string = key then
        (true, node.data, ⟨some (nodeList.set hashIndex (next :: rest)), s.size - 1⟩)
      else match Hash.Pop.loop key (next :: rest) with
        | some (data, chain) =>
          (true, data, ⟨some (nodeList.set hashIndex (node :: chain)), s.size - 1⟩)
        | none => (false, out, s)

/-- The walk of `RemoveAtIndex` from `last` (head of the argument) with `node` its
successor: while the remaining index is not zero both advance one link; then
`last->next=node->next`. `none` when `node` is null where `node->next` is read. -/
def Hash.RemoveAtIndex.loop : List (Node K V) → Nat → Option (List (Node K V))
  | [], _ => none
  | [_last], _ => none
  | last :: _node :: next, 0 => some (last :: next)
  | last :: node :: next, secondaryIndex + 1 =>
    match Hash.RemoveAtIndex.loop (node :: next) secondaryIndex with
    | none => none
    | some chain => some (last :: chain)

/-- Embeds `Hash::RemoveAtIndex`: the returned boolean and the object after the call;
`none` when the call reads through a null `nodeList`, outside the bucket array, or
through a null `node`. -/
def Hash.RemoveAtIndex (s : Hash K V) (index : HashIndex) : Option (Bool × Hash K V) :=
  if index.IsInvalid then some (false, s)
  else match s.nodeList with
    | none => none
    | some nodeList =>
      if index.primaryIndex < nodeList.length then
        match nodeList.getD index.primaryIndex [] with
        | [] => some (false, s)
        | [_node] =>
          let r := Hash.ClearIndex nodeList s.size index.primaryIndex
          some (true, ⟨some r.1, r.2⟩)
        | node :: next :: rest =>
          if index.secondaryIndex = 0 then
            some (true, ⟨some (nodeList.set index.primaryIndex (next :: rest)), s.size - 1⟩)
          else
            match Hash.RemoveAtIndex.loop (node :: next :: rest) (index.secondaryIndex - 1) with
            | none => none
            | some chain =>
              some (true, ⟨some (nodeList.set index.primaryIndex chain), s.size - 1⟩)
      else none

/-- The `while (node!=0)` loop of `GetIndexOf`, with the current `secondaryIndex`:
the ordinal of the first node whose key is `key`, `none` when the chain ends. -/
def Hash.GetIndexOf.loop (key : K) : List (Node K V) → Nat → Option Nat
  | [], _ => none
  | node :: next, secondaryIndex =>
    if node.string = key then some secondaryIndex
    else Hash.GetIndexOf.loop key next (secondaryIndex + 1)

/-- Embeds `Hash::GetIndexOf`. -/
def Hash.GetIndexOf (s : Hash K V) (key : K) : HashIndex :=
  match s.nodeList with
  | none => HashIndex.SetInvalid ⟨0, 0⟩
  | some nodeList =>
    let primaryIndex := hashFunction key % HASH_SIZE
    match nodeList.getD primaryIndex [] with
    | [] => HashIndex.SetInvalid ⟨primaryIndex, 0⟩
    | node :: next =>
      match Hash.GetIndexOf.loop key (node :: next) 0 with
      | some secondaryIndex => ⟨primaryIndex, secondaryIndex⟩
      | none => HashIndex.SetInvalid ⟨primaryIndex, 0⟩

/-- Embeds `Hash::Remove`: `RemoveAtIndex(GetIndexOf(key))`. -/
def Hash.Remove (s : Hash K V) (key : K) : Option (Bool × Hash K V) :=
  Hash.RemoveAtIndex s (Hash.GetIndexOf HASH_SIZE hashFunction s key)

/-- Embeds `Hash::HasData`: `GetIndexOf(key).IsInvalid()==false`. -/
def Hash.HasData (s : Hash K V) (key : K) : Bool :=
  (Hash.GetIndexOf HASH_SIZE hashFunction s key).IsInvalid == false

/-- The walk shared by `ItemAtIndex` and `KeyAtIndex`: `RakAssert(node)` on the head,
then `secondaryIndex` times `node=node->next; RakAssert(node)`. `none` when an
assertion fails. -/
def Hash.nodeAtIndex : List (Node K V) → Nat → Option (Node K V)
  | [], _ => none
  | node :: _, 0 => some node
  | _ :: next, i + 1 => Hash.nodeAtIndex next i

/-- Embeds `Hash::ItemAtIndex`; `none` when `nodeList` is null, the bucket is outside
the array, or an assertion fails. -/
def Hash.ItemAtIndex (s : Hash K V) (index : HashIndex) : Option V :=
  match s.nodeList with
  | none => none
  | some nodeList =>
    if index.primaryIndex < nodeList.length then
      (Hash.nodeAtIndex (nodeList.getD index.primaryIndex []) index.secondaryIndex).map
        Node.data
    else none

/-- Embeds `Hash::KeyAtIndex`; `none` when `nodeList` is null, the bucket is outside
the array, or an assertion fails. -/
def Hash.KeyAtIndex (s : Hash K V) (index : HashIndex) : Option K :=
  match s.nodeList with
  | none => none
  | some nodeList =>
    if index.primaryIndex < nodeList.length then
      (Hash.nodeAtIndex (nodeList.getD index.primaryIndex []) index.secondaryIndex).map
        Node.string
    else none

/-- The `for` loop of `Clear`: `ClearIndex(i)` for `i` from `0` to `HASH_SIZE - 1`. -/
def Hash.Clear.loop (nodeList : List (List (Node K V))) (size : Nat) :
    List (List (Node K V)) × Nat :=
  (List.range HASH_SIZE).foldl (fun r i => Hash.ClearIndex r.1 r.2 i) (nodeList, size)

/-- Embeds `Hash::Clear`: when `nodeList` is not null every bucket is cleared, the
array is deleted, `nodeList=0; size=0;`. -/
def Hash.Clear (s : Hash K V) : Hash K V :=
  match s.nodeList with
  | none => s
  | some nodeList =>
    let _r := Hash.Clear.loop HASH_SIZE nodeList s.size
    ⟨none, 0⟩

/-- The inner `while (node)` loop of `GetAsList` on one chain. -/
def Hash.GetAsList.chain : List (Node K V) → List V × List K → List V × List K
  | [], lists => lists
  | node :: next, (itemList, keyList) =>
    Hash.GetAsList.chain next (ListPush itemList node.data, ListPush keyList node.string)

/-- Embeds `Hash::GetAsList`: the contents of `itemList` and `keyList` after the
call. The `for` loop reads `nodeList[i]` for `i` from `0` to `HASH_SIZE - 1`. -/
def Hash.GetAsList (s : Hash K V) (itemList : List V) (keyList : List K) :
    List V × List K :=
  match s.nodeList with
  | none => (itemList, keyList)
  | some nodeList =>
    (List.range HASH_SIZE).foldl
      (fun lists i => Hash.GetAsList.chain (nodeList.getD i []) lists)
      (ListClear itemList, ListClear keyList)

/-- Embeds `Hash::Size`. -/
def Hash.Size (s : Hash K V) : Nat :=
  s.size

/-! ## Vocabulary of the specification -/

/-- The chain hanging off bucket `i`, head first; empty when the array is not
allocated. -/
def Hash.chainAt (s : Hash K V) (i : Nat) : List (Node K V) :=
  match s.nodeList with
  | none => []
  | some nodeList => nodeList.getD i []

/-- Total number of nodes in all bucket chains, `0` when the array is not allocated. -/
def Hash.nodeCount (s : Hash K V) : Nat :=
  match s.nodeList with
  | none => 0
  | some nodeList => (nodeList.map List.length).sum

/-- The bucket array, when allocated, has the `HASH_SIZE` slots `Push` gives it. -/
def Hash.Allocated (s : Hash K V) : Prop :=
  match s.nodeList with
  | none => True
  | some nodeList => nodeList.length = HASH_SIZE

/-- States reachable from a freshly constructed map by `Push`, `Pop`, `Remove`,
`RemoveAtIndex` (any call with a defined outcome, which covers the sentinel handle and
every handle inside its chain) and `Clear`. -/
inductive Hash.Reachable : Hash K V → Prop
  | ctor : Hash.Reachable Hash.ctor
  | Push (s : Hash K V) (key : K) (input : V) :
      Hash.Reachable s → Hash.Reachable (Hash.Push HASH_SIZE hashFunction s key input)
  | Pop (s : Hash K V) (out : V) (key : K) :
      Hash.Reachable s → Hash.Reachable (Hash.Pop HASH_SIZE hashFunction s out key).2.2
  | Remove (s : Hash K V) (key : K) (r : Bool) (t : Hash K V) :
      Hash.Reachable s → Hash.Remove HASH_SIZE hashFunction s key = some (r, t) →
      Hash.Reachable t
  | RemoveAtIndex (s : Hash K V) (index : HashIndex) (r : Bool) (t : Hash K V) :
      Hash.Reachable s → Hash.RemoveAtIndex s index = some (r, t) → Hash.Reachable t
  | Clear (s : Hash K V) :
      Hash.Reachable s → Hash.Reachable (Hash.Clear HASH_SIZE s)

/-- A handle is within its chain: the array is allocated, `primaryIndex` is one of
its slots and `secondaryIndex` is less than the length of that chain. -/
def Hash.indexInChain (s : Hash K V) (index : HashIndex) : Bool :=
  match s.nodeList with
  | none => false
  | some nodeList =>
    decide (index.primaryIndex < nodeList.length) &&
      decide (index.secondaryIndex < (nodeList.getD index.primaryIndex []).length)

/-- One call of a mutating member function other than `Clear`. -/
inductive Call (K V : Type) where
  | Push (key : K) (input : V)
  | Pop (out : V) (key : K)
  | Remove (key : K)
  | RemoveAtIndex (index : HashIndex)
deriving DecidableEq, Repr

/-- Runs one call: the boolean it returned (`true` for `Push`, which returns nothing)
and the object after it. -/
def Hash.call (s : Hash K V) : Call K V → Option (Bool × Hash K V)
  | .Push key input => some (true, Hash.Push HASH_SIZE hashFunction s key input)
  | .Pop out key =>
    let r := Hash.Pop HASH_SIZE hashFunction s out key
    some (r.1, r.2.2)
  | .Remove key => Hash.Remove HASH_SIZE hashFunction s key
  | .RemoveAtIndex index => Hash.RemoveAtIndex s index

/-- Runs a sequence of calls from `s`, counting in `pushes` the `Push` calls and in
`removed` the `Pop`, `Remove` and `RemoveAtIndex` calls that returned `true`: the
final object with the two counts. -/
def Hash.run (s : Hash K V) (pushes removed : Nat) :
    List (Call K V) → Option (Hash K V × Nat × Nat)
  | [] => some (s, pushes, removed)
  | c :: cs =>
    match Hash.call HASH_SIZE hashFunction s c with
    | none => none
    | some (r, t) =>
      match c with
      | .Push _ _ => Hash.run t (pushes + 1) removed cs
      | _ => Hash.run t pushes (if r then removed + 1 else removed) cs

/-- Along the run of `calls` from `s`, the handle of every `RemoveAtIndex` call is
the invalid sentinel or within its chain at the time of the call. -/
def Hash.handlesInRange (s : Hash K V) : List (Call K V) → Bool
  | [] => true
  | c :: cs =>
    (match c with
      | .RemoveAtIndex index => index.IsInvalid || Hash.indexInChain s index
      | _ => true) &&
    (match Hash.call HASH_SIZE hashFunction s c with
      | none => true
      | some (_, t) => Hash.handlesInRange t cs)

/-! ## Sample instance -/

/-- The hash function of the sample instance: `hash(x) = x`. -/
def Sample.hash : Nat → Nat := fun x => x

/-- A sample map with `HASH_SIZE = 4`: bucket 1 holds the chain `9, 5, 1`. -/
def Sample.three : Hash Nat String :=
  ⟨some [[], [⟨9, "c"⟩, ⟨5, "b"⟩, ⟨1, "a"⟩], [], []], 3⟩

/-- The sample map `Sample.three` after `Pop(9)` and `RemoveAtIndex` of `(1, 1)`. -/
def Sample.one : Hash Nat String :=
  ⟨some [[], [⟨5, "b"⟩], [], []], 1⟩

/-- A sample map with `HASH_SIZE = 4`: keys in buckets 1 and 2, key `5` twice. -/
def Sample.mixed : Hash Nat String :=
  ⟨some [[], [⟨5, "b"⟩, ⟨1, "a"⟩, ⟨5, "z"⟩], [⟨2, "t"⟩], []], 4⟩

end

/-! ## Lists and chains -/

theorem getD_set_self {α : Type} (l : List α) (i : Nat) (a d : α) (h : i < l.length) :
    (l.set i a).getD i d = a := by
  simp [List.getD_eq_getElem?_getD, List.getElem?_set, h]

theorem getD_set_ne {α : Type} (l : List α) (i j : Nat) (a d : α) (h : i ≠ j) :
    (l.set i a).getD j d = l.getD j d := by
  simp [List.getD_eq_getElem?_getD, List.getElem?_set, h]

theorem getD_replicate_nil {α : Type} (n i : Nat) :
    (List.replicate n ([] : List α)).getD i [] = [] := by
  by_cases h : i < n <;> simp [List.getD_eq_getElem?_getD, h]

theorem sum_length_set {α : Type} (l : List (List α)) (i : Nat) (c : List α)
    (h : i < l.length) :
    ((l.set i c).map List.length).sum + (l.getD i []).length
      = (l.map List.length).sum + c.length := by
  induction l generalizing i with
  | nil => simp at h
  | cons x xs ih =>
    cases i with
    | zero => simp; omega
    | succ i =>
      simp at h
      have := ih i h
      simp at this ⊢
      omega

theorem sum_length_replicate_nil {α : Type} (n : Nat) :
    ((List.replicate n ([] : List α)).map List.length).sum = 0 := by
  induction n with
  | zero => rfl
  | succ n ih => simp [List.replicate_succ]

theorem length_getD_le_sum {α : Type} (l : List (List α)) (i : Nat) :
    (l.getD i []).length ≤ (l.map List.length).sum := by
  induction l generalizing i with
  | nil => simp
  | cons x xs ih =>
    cases i with
    | zero => simp
    | succ i =>
      have := ih i
      simp at this ⊢
      omega

/-! ## The loops -/

theorem ClearIndex_loop_eq {K V : Type} (chain : List (Node K V)) (size : Nat) :
    Hash.ClearIndex.loop chain size = size - chain.length := by
  induction chain generalizing size with
  | nil => simp [Hash.ClearIndex.loop]
  | cons node next ih => simp [Hash.ClearIndex.loop, ih]; omega

theorem RemoveAtIndex_loop_eq {K V : Type} (chain : List (Node K V)) (j : Nat)
    (h : j + 1 < chain.length) :
    Hash.RemoveAtIndex.loop chain j = some (chain.eraseIdx (j + 1)) := by
  induction j generalizing chain with
  | zero =>
    match chain, h with
    | last :: node :: next, _ => simp [Hash.RemoveAtIndex.loop]
  | succ j ih =>
    match chain, h with
    | last :: node :: next, h =>
      have h2 : j + 1 < (node :: next).length := by simp at h ⊢; omega
      simp [Hash.RemoveAtIndex.loop, ih (node :: next) h2]

/-- With a handle inside its chain `RemoveAtIndex` has a defined outcome: it returns
`true`, erases the node at ordinal `secondaryIndex` of bucket `primaryIndex` and
decrements `size`. -/
theorem RemoveAtIndex_in_chain {K V : Type} (nl : List (List (Node K V))) (size : Nat)
    (index : HashIndex) (hv : index.IsInvalid = false)
    (hp : index.primaryIndex < nl.length)
    (hj : index.secondaryIndex < (nl.getD index.primaryIndex []).length) :
    Hash.RemoveAtIndex ⟨some nl, size⟩ index
      = some (true, ⟨some (nl.set index.primaryIndex
          ((nl.getD index.primaryIndex []).eraseIdx index.secondaryIndex)), size - 1⟩) := by
  simp only [Hash.RemoveAtIndex, hv, hp, if_true, Bool.false_eq_true, if_false,
    Hash.ClearIndex, ClearIndex_loop_eq]
  generalize nl.getD index.primaryIndex [] = chain at hj ⊢
  match chain, hj with
  | [], hj => simp at hj
  | [node], hj =>
    have h0 : index.secondaryIndex = 0 := by simpa using hj
    simp [h0]
  | node :: node2 :: rest, hj =>
    by_cases h0 : index.secondaryIndex = 0
    · simp [h0]
    · have hlt : index.secondaryIndex - 1 + 1 < (node :: node2 :: rest).length := by
        omega
      have he : index.secondaryIndex - 1 + 1 = index.secondaryIndex := by omega
      simp only [h0, if_false, RemoveAtIndex_loop_eq _ _ hlt, he]

section

variable {K V : Type} [DecidableEq K]
variable (HASH_SIZE : Nat) (hashFunction : K → Nat)

theorem Peek_loop_isSome (key : K) (chain : List (Node K V)) :
    (Hash.Peek.loop key chain).isSome = true ↔ ∃ node ∈ chain, node.string = key := by
  induction chain with
  | nil => simp [Hash.Peek.loop]
  | cons node next ih =>
    by_cases h : node.string = key
    · simp [Hash.Peek.loop, h]
    · simp [Hash.Peek.loop, h, ih]

theorem GetIndexOf_loop_none (key : K) (chain : List (Node K V)) (n : Nat) :
    Hash.GetIndexOf.loop key chain n = none ↔ ¬ ∃ node ∈ chain, node.string = key := by
  induction chain generalizing n with
  | nil => simp [Hash.GetIndexOf.loop]
  | cons node next ih =>
    by_cases h : node.string = key
    · simp [Hash.GetIndexOf.loop, h]
    · simp [Hash.GetIndexOf.loop, h, ih]

theorem GetIndexOf_loop_some (key : K) (chain : List (Node K V)) (n j : Nat)
    (h : Hash.GetIndexOf.loop key chain n = some j) :
    ∃ i node, j = n + i ∧ chain[i]? = some node ∧ node.string = key ∧
      ∀ i0 < i, ∀ m, chain[i0]? = some m → m.string ≠ key := by
  induction chain generalizing n with
  | nil => simp [Hash.GetIndexOf.loop] at h
  | cons node next ih =>
    by_cases hk : node.string = key
    · simp [Hash.GetIndexOf.loop, hk] at h
      exact ⟨0, node, by omega, by simp, hk, by intro i0 hi0; omega⟩
    · simp [Hash.GetIndexOf.loop, hk] at h
      obtain ⟨i, m, hj, hget, hm, hmin⟩ := ih (n + 1) h
      refine ⟨i + 1, m, by omega, by simpa using hget, hm, ?_⟩
      intro i0 hi0 m0 hm0
      cases i0 with
      | zero =>
        simp at hm0
        subst hm0
        exact hk
      | succ i0 =>
        simp at hm0
        exact hmin i0 (by omega) m0 hm0

/-! ## The member functions on chains -/

theorem Peek_eq (s : Hash K V) (key : K) :
    Hash.Peek HASH_SIZE hashFunction s key
      = Hash.Peek.loop key (Hash.chainAt s (hashFunction key % HASH_SIZE)) := by
  cases s with
  | mk nodeList size =>
    cases nodeList <;> simp [Hash.Peek, Hash.chainAt, Hash.Peek.loop]

theorem GetIndexOf_eq (s : Hash K V) (key : K) :
    Hash.GetIndexOf HASH_SIZE hashFunction s key
      = match Hash.GetIndexOf.loop key (Hash.chainAt s (hashFunction key % HASH_SIZE)) 0 with
        | some j => ⟨hashFunction key % HASH_SIZE, j⟩
        | none => ⟨SIZE_MAX, SIZE_MAX⟩ := by
  cases s with
  | mk nodeList size =>
    cases nodeList with
    | none => simp [Hash.GetIndexOf, Hash.chainAt, Hash.GetIndexOf.loop, HashIndex.SetInvalid]
    | some nl =>
      simp only [Hash.GetIndexOf, Hash.chainAt]
      cases hc : nl.getD (hashFunction key % HASH_SIZE) [] with
      | nil => simp [Hash.GetIndexOf.loop, HashIndex.SetInvalid]
      | cons node next =>
        simp only []
        cases Hash.GetIndexOf.loop key (node :: next) 0 <;> simp [HashIndex.SetInvalid]

theorem mod_ne_SIZE_MAX (hpos : 0 < HASH_SIZE) (hmax : HASH_SIZE ≤ SIZE_MAX) (h : Nat) :
    h % HASH_SIZE ≠ SIZE_MAX := by
  have := Nat.mod_lt h hpos
  omega

theorem HasData_iff (hpos : 0 < HASH_SIZE) (hmax : HASH_SIZE ≤ SIZE_MAX)
    (s : Hash K V) (key : K) :
    Hash.HasData HASH_SIZE hashFunction s key = true
      ↔ ∃ node ∈ Hash.chainAt s (hashFunction key % HASH_SIZE), node.string = key := by
  rw [Hash.HasData, GetIndexOf_eq]
  cases hl : Hash.GetIndexOf.loop key (Hash.chainAt s (hashFunction key % HASH_SIZE)) 0 with
  | none =>
    have := (GetIndexOf_loop_none key _ 0).1 hl
    simp [HashIndex.IsInvalid, this]
  | some j =>
    have hne : ¬ Hash.GetIndexOf.loop key
        (Hash.chainAt s (hashFunction key % HASH_SIZE)) 0 = none := by simp [hl]
    rw [GetIndexOf_loop_none] at hne
    have hb := mod_ne_SIZE_MAX HASH_SIZE hpos hmax (hashFunction key)
    simp [HashIndex.IsInvalid, hb]
    simpa using hne

theorem Pop_loop_eq (key : K) (chain : List (Node K V)) :
    Hash.Pop.loop key chain
      = (Hash.Peek.loop key chain).map
          (fun d => (d, chain.eraseP (fun m => decide (m.string = key)))) := by
  induction chain with
  | nil => simp [Hash.Pop.loop, Hash.Peek.loop]
  | cons node next ih =>
    by_cases hk : node.string = key
    · simp [Hash.Pop.loop, Hash.Peek.loop, hk]
    · simp only [Hash.Pop.loop, Hash.Peek.loop, hk, if_false, ih]
      cases Hash.Peek.loop key next <;> simp [List.eraseP_cons, hk]

theorem GetIndexOf_loop_erase (key : K) (chain : List (Node K V)) (n j : Nat)
    (h : Hash.GetIndexOf.loop key chain n = some j) :
    ∃ i, j = n + i ∧ i < chain.length ∧
      chain.eraseIdx i = chain.eraseP (fun m => decide (m.string = key)) := by
  induction chain generalizing n with
  | nil => simp [Hash.GetIndexOf.loop] at h
  | cons node next ih =>
    by_cases hk : node.string = key
    · simp [Hash.GetIndexOf.loop, hk] at h
      exact ⟨0, by omega, by simp, by simp [List.eraseP_cons, hk]⟩
    · simp [Hash.GetIndexOf.loop, hk] at h
      obtain ⟨i, hj, hlt, he⟩ := ih (n + 1) h
      exact ⟨i + 1, by omega, by simpa using hlt, by simp [List.eraseP_cons, hk, he]⟩

theorem Pop_eq (s : Hash K V) (out : V) (key : K) :
    Hash.Pop HASH_SIZE hashFunction s out key
      = match Hash.Peek.loop key (Hash.chainAt s (hashFunction key % HASH_SIZE)) with
        | none => (false, out, s)
        | some d => (true, d, ⟨s.nodeList.map (fun nl =>
            nl.set (hashFunction key % HASH_SIZE)
              ((nl.getD (hashFunction key % HASH_SIZE) []).eraseP
                (fun m => decide (m.string = key)))), s.size - 1⟩) := by
  cases s with
  | mk nodeList size =>
    cases nodeList with
    | none => simp [Hash.Pop, Hash.chainAt, Hash.Peek.loop]
    | some nl =>
      simp only [Hash.Pop, Hash.chainAt, Option.map_some', Hash.ClearIndex,
        ClearIndex_loop_eq]
      generalize nl.getD (hashFunction key % HASH_SIZE) [] = chain
      match chain with
      | [] => simp [Hash.Peek.loop]
      | [node] =>
        by_cases hk : node.string = key
        · simp [Hash.Peek.loop, hk, List.eraseP_cons]
        · simp [Hash.Peek.loop, hk]
      | node :: node2 :: rest =>
        by_cases hk : node.string = key
        · simp [Hash.Peek.loop, hk, List.eraseP_cons]
        · have hp : Hash.Peek.loop key (node :: node2 :: rest)
              = Hash.Peek.loop key (node2 :: rest) := by
            rw [Hash.Peek.loop]
            simp only [hk, if_false]
          have he : (node :: node2 :: rest).eraseP (fun m => decide (m.string = key))
              = node :: (node2 :: rest).eraseP (fun m => decide (m.string = key)) := by
            rw [List.eraseP_cons]
            simp [hk]
          simp only [hk, if_false, Pop_loop_eq, hp, he]
          cases Hash.Peek.loop key (node2 :: rest) <;> rfl

/-! ## Push -/

omit [DecidableEq K] in
theorem Push_eq (s : Hash K V) (key : K) (input : V) :
    Hash.Push HASH_SIZE hashFunction s key input
      = ⟨some ((s.nodeList.getD (List.replicate HASH_SIZE [])).set
            (hashFunction key % HASH_SIZE)
            (⟨key, input⟩ :: Hash.chainAt s (hashFunction key % HASH_SIZE))),
          s.size + 1⟩ := by
  cases s with
  | mk nodeList size =>
    cases nodeList with
    | none => simp [Hash.Push, Hash.chainAt, getD_replicate_nil]
    | some nl => simp [Hash.Push, Hash.chainAt]

omit [DecidableEq K] in
theorem Allocated_length (s : Hash K V) (hs : Hash.Allocated HASH_SIZE s) :
    (s.nodeList.getD (List.replicate HASH_SIZE [])).length = HASH_SIZE := by
  cases s with
  | mk nodeList size =>
    cases nodeList with
    | none => simp
    | some nl => simpa [Hash.Allocated] using hs

omit [DecidableEq K] in
theorem Allocated_Push (s : Hash K V) (hs : Hash.Allocated HASH_SIZE s) (key : K)
    (input : V) :
    Hash.Allocated HASH_SIZE (Hash.Push HASH_SIZE hashFunction s key input) := by
  rw [Push_eq]
  simpa [Hash.Allocated] using Allocated_length HASH_SIZE s hs

omit [DecidableEq K] in
theorem chainAt_Push_self (hpos : 0 < HASH_SIZE) (s : Hash K V)
    (hs : Hash.Allocated HASH_SIZE s) (key : K) (input : V) :
    Hash.chainAt (Hash.Push HASH_SIZE hashFunction s key input)
        (hashFunction key % HASH_SIZE)
      = ⟨key, input⟩ :: Hash.chainAt s (hashFunction key % HASH_SIZE) := by
  rw [Push_eq]
  simp only [Hash.chainAt]
  apply getD_set_self
  rw [Allocated_length HASH_SIZE s hs]
  exact Nat.mod_lt _ hpos

omit [DecidableEq K] in
theorem chainAt_Push_ne (s : Hash K V) (key : K) (input : V) (i : Nat)
    (hi : i ≠ hashFunction key % HASH_SIZE) :
    Hash.chainAt (Hash.Push HASH_SIZE hashFunction s key input) i = Hash.chainAt s i := by
  rw [Push_eq]
  simp only [Hash.chainAt]
  rw [getD_set_ne _ _ _ _ _ (Ne.symm hi)]
  cases s with
  | mk nodeList size =>
    cases nodeList with
    | none => simp [getD_replicate_nil]
    | some nl => simp

theorem Peek_Push_self (hpos : 0 < HASH_SIZE) (s : Hash K V)
    (hs : Hash.Allocated HASH_SIZE s) (key : K) (input : V) :
    Hash.Peek HASH_SIZE hashFunction (Hash.Push HASH_SIZE hashFunction s key input) key
      = some input := by
  rw [Peek_eq, chainAt_Push_self HASH_SIZE hashFunction hpos s hs]
  simp [Hash.Peek.loop]

/-- C1. For every map state (unallocated, or allocated with any contents), every key
and every value: immediately after `Push(key, input)`, `HasData(key)` returns true and
`Peek(key)` returns a non-null pointer to a value equal to `input`. -/
theorem Push_then_HasData_and_Peek (hpos : 0 < HASH_SIZE) (hmax : HASH_SIZE ≤ SIZE_MAX)
    (s : Hash K V) (hs : Hash.Allocated HASH_SIZE s) (key : K) (input : V) :
    Hash.HasData HASH_SIZE hashFunction
        (Hash.Push HASH_SIZE hashFunction s key input) key = true
      ∧ Hash.Peek HASH_SIZE hashFunction
        (Hash.Push HASH_SIZE hashFunction s key input) key = some input := by
  refine ⟨?_, Peek_Push_self HASH_SIZE hashFunction hpos s hs key input⟩
  rw [HasData_iff HASH_SIZE hashFunction hpos hmax,
    chainAt_Push_self HASH_SIZE hashFunction hpos s hs]
  exact ⟨⟨key, input⟩, by simp, rfl⟩

theorem Push_then_HasData_and_Peek_witness :
    Hash.HasData 4 (fun x : Nat => x)
        (Hash.Push 4 (fun x : Nat => x) ⟨some [[], [⟨5, "b"⟩, ⟨1, "a"⟩], [], []], 2⟩ 9 "c") 9
      = true
      ∧ Hash.Peek 4 (fun x : Nat => x)
        (Hash.Push 4 (fun x : Nat => x) ⟨some [[], [⟨5, "b"⟩, ⟨1, "a"⟩], [], []], 2⟩ 9 "c") 9
      = some "c" :=
  Push_then_HasData_and_Peek 4 (fun x : Nat => x) (by decide) (by decide)
    ⟨some [[], [⟨5, "b"⟩, ⟨1, "a"⟩], [], []], 2⟩ (by simp [Hash.Allocated]) 9 "c"

theorem Pop_Push_self (hpos : 0 < HASH_SIZE) (s : Hash K V)
    (hs : Hash.Allocated HASH_SIZE s) (key : K) (v1 v2 out : V) :
    Hash.Pop HASH_SIZE hashFunction
        (Hash.Push HASH_SIZE hashFunction
          (Hash.Push HASH_SIZE hashFunction s key v1) key v2) out key
      = (true, v2, Hash.Push HASH_SIZE hashFunction s key v1) := by
  have hs1 := Allocated_Push HASH_SIZE hashFunction s hs key v1
  have hc1 := chainAt_Push_self HASH_SIZE hashFunction hpos s hs key v1
  have hc2 := chainAt_Push_self HASH_SIZE hashFunction hpos _ hs1 key v2
  have hlen := Allocated_length HASH_SIZE _ hs1
  have hb : hashFunction key % HASH_SIZE < HASH_SIZE := Nat.mod_lt _ hpos
  rw [Pop_eq, hc2]
  simp only [Hash.Peek.loop, if_true]
  rw [Push_eq HASH_SIZE hashFunction (Hash.Push HASH_SIZE hashFunction s key v1) key v2]
  simp only [Option.map_some', Nat.add_sub_cancel]
  rw [getD_set_self _ _ _ _ (by rw [hlen]; exact hb), List.set_set, hc1]
  simp only [List.eraseP_cons, decide_True, cond_true]
  rw [Push_eq HASH_SIZE hashFunction s key v1]
  simp [List.set_set]

/-- C4. For every map state, every key and values `v1`, `v2`: after `Push(key, v1)`
then `Push(key, v2)`, `Peek(key)` returns `v2`; `Pop(key)` then returns true with
`out = v2` (leaving the map as it was after the first `Push`), and afterwards
`Peek(key)` returns `v1`. -/
theorem Push_twice_Peek_Pop_Peek (hpos : 0 < HASH_SIZE) (s : Hash K V)
    (hs : Hash.Allocated HASH_SIZE s) (key : K) (v1 v2 out : V) :
    Hash.Peek HASH_SIZE hashFunction
        (Hash.Push HASH_SIZE hashFunction
          (Hash.Push HASH_SIZE hashFunction s key v1) key v2) key = some v2
      ∧ (Hash.Pop HASH_SIZE hashFunction
          (Hash.Push HASH_SIZE hashFunction
            (Hash.Push HASH_SIZE hashFunction s key v1) key v2) out key).1 = true
      ∧ (Hash.Pop HASH_SIZE hashFunction
          (Hash.Push HASH_SIZE hashFunction
            (Hash.Push HASH_SIZE hashFunction s key v1) key v2) out key).2.1 = v2
      ∧ Hash.Peek HASH_SIZE hashFunction
          (Hash.Pop HASH_SIZE hashFunction
            (Hash.Push HASH_SIZE hashFunction
              (Hash.Push HASH_SIZE hashFunction s key v1) key v2) out key).2.2 key
        = some v1 := by
  rw [Pop_Push_self HASH_SIZE hashFunction hpos s hs]
  exact ⟨Peek_Push_self HASH_SIZE hashFunction hpos _
      (Allocated_Push HASH_SIZE hashFunction s hs key v1) key v2,
    rfl, rfl, Peek_Push_self HASH_SIZE hashFunction hpos s hs key v1⟩

theorem Push_twice_Peek_Pop_Peek_witness :
    Hash.Peek 4 (fun x : Nat => x)
        (Hash.Push 4 (fun x : Nat => x)
          (Hash.Push 4 (fun x : Nat => x) ⟨some [[], [⟨5, 50⟩, ⟨1, 10⟩], [], []], 2⟩ 5 51)
          5 52) 5 = some 52
      ∧ (Hash.Pop 4 (fun x : Nat => x)
          (Hash.Push 4 (fun x : Nat => x)
            (Hash.Push 4 (fun x : Nat => x) ⟨some [[], [⟨5, 50⟩, ⟨1, 10⟩], [], []], 2⟩ 5 51)
            5 52) 0 5).1 = true
      ∧ (Hash.Pop 4 (fun x : Nat => x)
          (Hash.Push 4 (fun x : Nat => x)
            (Hash.Push 4 (fun x : Nat => x) ⟨some [[], [⟨5, 50⟩, ⟨1, 10⟩], [], []], 2⟩ 5 51)
            5 52) 0 5).2.1 = 52
      ∧ Hash.Peek 4 (fun x : Nat => x)
          (Hash.Pop 4 (fun x : Nat => x)
            (Hash.Push 4 (fun x : Nat => x)
              (Hash.Push 4 (fun x : Nat => x) ⟨some [[], [⟨5, 50⟩, ⟨1, 10⟩], [], []], 2⟩ 5 51)
              5 52) 0 5).2.2 5
        = some 51 :=
  Push_twice_Peek_Pop_Peek 4 (fun x : Nat => x) (by decide)
    ⟨some [[], [⟨5, 50⟩, ⟨1, 10⟩], [], []], 2⟩ (by simp [Hash.Allocated]) 5 51 52 0

/-- C10. For every map state and key, with `b = hashFunction(key) % HASH_SIZE`: when
some node of chain `b` has a key equal to `key`, `GetIndexOf(key)` returns the handle
`(b, j)` with `j` the smallest ordinal of chain `b` whose key equals `key`, and that
handle is not `IsInvalid`; otherwise (an unallocated map included) it returns the
sentinel whose two indices are `(size_t) -1`. `HasData(key)` is true exactly when
`Peek(key)` is not null. -/
theorem GetIndexOf_first_match_or_sentinel (hpos : 0 < HASH_SIZE)
    (hmax : HASH_SIZE ≤ SIZE_MAX) (s : Hash K V) (key : K) :
    ((∃ node ∈ Hash.chainAt s (hashFunction key % HASH_SIZE), node.string = key) →
        ∃ j node,
          Hash.GetIndexOf HASH_SIZE hashFunction s key = ⟨hashFunction key % HASH_SIZE, j⟩
          ∧ (Hash.chainAt s (hashFunction key % HASH_SIZE))[j]? = some node
          ∧ node.string = key
          ∧ (∀ i < j, ∀ m, (Hash.chainAt s (hashFunction key % HASH_SIZE))[i]? = some m →
              m.string ≠ key)
          ∧ (Hash.GetIndexOf HASH_SIZE hashFunction s key).IsInvalid = false)
      ∧ ((¬ ∃ node ∈ Hash.chainAt s (hashFunction key % HASH_SIZE), node.string = key) →
          Hash.GetIndexOf HASH_SIZE hashFunction s key = ⟨SIZE_MAX, SIZE_MAX⟩)
      ∧ (Hash.HasData HASH_SIZE hashFunction s key = true
          ↔ Hash.Peek HASH_SIZE hashFunction s key ≠ none) := by
  refine ⟨?_, ?_, ?_⟩
  · intro hex
    cases hl : Hash.GetIndexOf.loop key
        (Hash.chainAt s (hashFunction key % HASH_SIZE)) 0 with
    | none => exact absurd hex ((GetIndexOf_loop_none key _ 0).1 hl)
    | some j =>
      obtain ⟨i, node, hj, hget, hk, hmin⟩ := GetIndexOf_loop_some key _ 0 j hl
      have hij : j = i := by omega
      subst hij
      have hidx : Hash.GetIndexOf HASH_SIZE hashFunction s key
          = ⟨hashFunction key % HASH_SIZE, j⟩ := by
        rw [GetIndexOf_eq, hl]
      refine ⟨j, node, hidx, hget, hk, hmin, ?_⟩
      rw [hidx]
      simpa [HashIndex.IsInvalid] using
        mod_ne_SIZE_MAX HASH_SIZE hpos hmax (hashFunction key)
  · intro hex
    rw [GetIndexOf_eq, (GetIndexOf_loop_none key _ 0).2 hex]
  · rw [HasData_iff HASH_SIZE hashFunction hpos hmax, Peek_eq, ← Peek_loop_isSome,
      Option.isSome_iff_ne_none]

theorem GetIndexOf_first_match_or_sentinel_witness :
    ((∃ node ∈ Hash.chainAt
          (⟨some [[], [⟨5, "b"⟩, ⟨1, "a"⟩, ⟨1, "z"⟩], [], []], 3⟩ : Hash Nat String)
          ((fun x : Nat => x) 1 % 4), node.string = 1) →
        ∃ j node,
          Hash.GetIndexOf 4 (fun x : Nat => x)
            (⟨some [[], [⟨5, "b"⟩, ⟨1, "a"⟩, ⟨1, "z"⟩], [], []], 3⟩ : Hash Nat String) 1
            = ⟨(fun x : Nat => x) 1 % 4, j⟩
          ∧ (Hash.chainAt
              (⟨some [[], [⟨5, "b"⟩, ⟨1, "a"⟩, ⟨1, "z"⟩], [], []], 3⟩ : Hash Nat String)
              ((fun x : Nat => x) 1 % 4))[j]? = some node
          ∧ node.string = 1
          ∧ (∀ i < j, ∀ m, (Hash.chainAt
              (⟨some [[], [⟨5, "b"⟩, ⟨1, "a"⟩, ⟨1, "z"⟩], [], []], 3⟩ : Hash Nat String)
              ((fun x : Nat => x) 1 % 4))[i]? = some m → m.string ≠ 1)
          ∧ (Hash.GetIndexOf 4 (fun x : Nat => x)
              (⟨some [[], [⟨5, "b"⟩, ⟨1, "a"⟩, ⟨1, "z"⟩], [], []], 3⟩ : Hash Nat String)
              1).IsInvalid = false)
      ∧ ((¬ ∃ node ∈ Hash.chainAt
            (⟨some [[], [⟨5, "b"⟩, ⟨1, "a"⟩, ⟨1, "z"⟩], [], []], 3⟩ : Hash Nat String)
            ((fun x : Nat => x) 1 % 4), node.string = 1) →
          Hash.GetIndexOf 4 (fun x : Nat => x)
            (⟨some [[], [⟨5, "b"⟩, ⟨1, "a"⟩, ⟨1, "z"⟩], [], []], 3⟩ : Hash Nat String) 1
            = ⟨SIZE_MAX, SIZE_MAX⟩)
      ∧ (Hash.HasData 4 (fun x : Nat => x)
            (⟨some [[], [⟨5, "b"⟩, ⟨1, "a"⟩, ⟨1, "z"⟩], [], []], 3⟩ : Hash Nat String) 1
            = true
          ↔ Hash.Peek 4 (fun x : Nat => x)
            (⟨some [[], [⟨5, "b"⟩, ⟨1, "a"⟩, ⟨1, "z"⟩], [], []], 3⟩ : Hash Nat String) 1
            ≠ none) :=
  GetIndexOf_first_match_or_sentinel 4 (fun x : Nat => x) (by decide) (by decide)
    ⟨some [[], [⟨5, "b"⟩, ⟨1, "a"⟩, ⟨1, "z"⟩], [], []], 3⟩ 1

/-! ## The size invariant -/

omit [DecidableEq K] in
theorem nodeCount_eq_sum (s : Hash K V) :
    Hash.nodeCount s
      = ((s.nodeList.getD (List.replicate HASH_SIZE [])).map List.length).sum := by
  cases s with
  | mk nodeList size =>
    cases nodeList with
    | none => simp [Hash.nodeCount, sum_length_replicate_nil]
    | some nl => simp [Hash.nodeCount]

omit [DecidableEq K] in
theorem Push_size (hpos : 0 < HASH_SIZE) (s : Hash K V)
    (hs : Hash.Allocated HASH_SIZE s) (hn : s.size = Hash.nodeCount s) (key : K)
    (input : V) :
    (Hash.Push HASH_SIZE hashFunction s key input).size
      = Hash.nodeCount (Hash.Push HASH_SIZE hashFunction s key input)
    ∧ (Hash.Push HASH_SIZE hashFunction s key input).size = s.size + 1 := by
  have hlen := Allocated_length HASH_SIZE s hs
  have hb : hashFunction key % HASH_SIZE < HASH_SIZE := Nat.mod_lt _ hpos
  have hsum := sum_length_set (s.nodeList.getD (List.replicate HASH_SIZE []))
    (hashFunction key % HASH_SIZE)
    (⟨key, input⟩ :: Hash.chainAt s (hashFunction key % HASH_SIZE))
    (by rw [hlen]; exact hb)
  have hchain : (s.nodeList.getD (List.replicate HASH_SIZE [])).getD
      (hashFunction key % HASH_SIZE) []
      = Hash.chainAt s (hashFunction key % HASH_SIZE) := by
    cases s with
    | mk nodeList size =>
      cases nodeList with
      | none => simp [Hash.chainAt, getD_replicate_nil]
      | some nl => simp [Hash.chainAt]
  rw [hchain, ← nodeCount_eq_sum HASH_SIZE s] at hsum
  rw [Push_eq]
  simp only [List.length_cons] at hsum
  refine ⟨?_, rfl⟩
  show s.size + 1 = (List.map List.length _).sum
  omega

/-- Replacing the chain of one bucket by a chain one node shorter while decrementing
`size` keeps the array length and the equality of `size` with the node count. -/
theorem set_shorter_inv {K V : Type} (nl : List (List (Node K V))) (size p : Nat)
    (c : List (Node K V)) (hn : size = (nl.map List.length).sum) (hp : p < nl.length)
    (hc : c.length + 1 = (nl.getD p []).length) :
    (nl.set p c).length = nl.length
      ∧ size - 1 = ((nl.set p c).map List.length).sum
      ∧ size - 1 + 1 = size := by
  have hsum := sum_length_set nl p c hp
  have hle := length_getD_le_sum nl p
  refine ⟨by simp, ?_, ?_⟩ <;> omega

theorem RemoveAtIndex_loop_length {K V : Type} (chain c : List (Node K V)) (j : Nat)
    (h : Hash.RemoveAtIndex.loop chain j = some c) : c.length + 1 = chain.length := by
  induction j generalizing chain c with
  | zero =>
    match chain, h with
    | last :: node :: next, h =>
      simp [Hash.RemoveAtIndex.loop] at h
      subst h
      simp
  | succ j ih =>
    match chain, h with
    | last :: node :: next, h =>
      simp only [Hash.RemoveAtIndex.loop] at h
      cases hl : Hash.RemoveAtIndex.loop (node :: next) j with
      | none => simp [hl] at h
      | some c2 =>
        simp [hl] at h
        subst h
        have := ih (node :: next) c2 hl
        simp at this ⊢
        omega

/-- Every defined `RemoveAtIndex` call keeps the invariant, and `size` goes down by
one exactly when the call returns true. -/
theorem RemoveAtIndex_inv {K V : Type} (HASH_SIZE : Nat) (s t : Hash K V)
    (index : HashIndex) (r : Bool)
    (hs : Hash.Allocated HASH_SIZE s) (hn : s.size = Hash.nodeCount s)
    (h : Hash.RemoveAtIndex s index = some (r, t)) :
    Hash.Allocated HASH_SIZE t ∧ t.size = Hash.nodeCount t
      ∧ t.size + (if r then 1 else 0) = s.size := by
  cases s with
  | mk nodeList size =>
    simp only [Hash.RemoveAtIndex] at h
    by_cases hv : index.IsInvalid = true
    · simp [hv] at h
      obtain ⟨hr, ht⟩ := h
      subst hr ht
      exact ⟨hs, hn, by simp⟩
    · simp only [hv, if_false] at h
      cases nodeList with
      | none => simp at h
      | some nl =>
        simp only [Hash.Allocated] at hs
        simp only [Hash.nodeCount] at hn
        by_cases hp : index.primaryIndex < nl.length
        · simp only [hp, if_true, Hash.ClearIndex, ClearIndex_loop_eq] at h
          have key := set_shorter_inv nl size index.primaryIndex
          generalize nl.getD index.primaryIndex [] = chain at h key
          match chain, h with
          | [], h =>
            simp at h
            obtain ⟨hr, ht⟩ := h
            subst hr ht
            exact ⟨hs, hn, by simp⟩
          | [node], h =>
            simp at h
            obtain ⟨hr, ht⟩ := h
            subst hr ht
            obtain ⟨h1, h2, h3⟩ := key [] hn hp (by simp)
            exact ⟨by simp [Hash.Allocated, hs], by simpa [Hash.nodeCount] using h2,
              by simpa using h3⟩
          | node :: node2 :: rest, h =>
            by_cases h0 : index.secondaryIndex = 0
            · simp [h0] at h
              obtain ⟨hr, ht⟩ := h
              subst hr ht
              obtain ⟨h1, h2, h3⟩ := key (node2 :: rest) hn hp (by simp)
              exact ⟨by simp [Hash.Allocated, hs], by simpa [Hash.nodeCount] using h2,
                by simpa using h3⟩
            · simp only [h0, if_false] at h
              cases hl : Hash.RemoveAtIndex.loop (node :: node2 :: rest)
                  (index.secondaryIndex - 1) with
              | none => simp [hl] at h
              | some c =>
                simp [hl] at h
                obtain ⟨hr, ht⟩ := h
                subst hr ht
                obtain ⟨h1, h2, h3⟩ := key c hn hp
                  (RemoveAtIndex_loop_length _ c _ hl)
                exact ⟨by simp [Hash.Allocated, hs], by simpa [Hash.nodeCount] using h2,
                  by simpa using h3⟩
        · simp [hp] at h

/-! ## Remove -/

theorem Remove_eq (hpos : 0 < HASH_SIZE) (hmax : HASH_SIZE ≤ SIZE_MAX) (s : Hash K V)
    (hs : Hash.Allocated HASH_SIZE s) (key : K) :
    Hash.Remove HASH_SIZE hashFunction s key
      = some (match Hash.Peek.loop key (Hash.chainAt s (hashFunction key % HASH_SIZE)) with
        | none => (false, s)
        | some _ => (true, ⟨s.nodeList.map (fun nl =>
            nl.set (hashFunction key % HASH_SIZE)
              ((nl.getD (hashFunction key % HASH_SIZE) []).eraseP
                (fun m => decide (m.string = key)))), s.size - 1⟩)) := by
  have hb : hashFunction key % HASH_SIZE < HASH_SIZE := Nat.mod_lt _ hpos
  rw [Hash.Remove, GetIndexOf_eq]
  cases hl : Hash.GetIndexOf.loop key
      (Hash.chainAt s (hashFunction key % HASH_SIZE)) 0 with
  | none =>
    have hno := (GetIndexOf_loop_none key _ 0).1 hl
    rw [← Peek_loop_isSome] at hno
    have hpk : Hash.Peek.loop key (Hash.chainAt s (hashFunction key % HASH_SIZE))
        = none := by simpa using hno
    rw [hpk]
    simp [Hash.RemoveAtIndex, HashIndex.IsInvalid]
  | some j =>
    have hex : ∃ node ∈ Hash.chainAt s (hashFunction key % HASH_SIZE),
        node.string = key := by
      by_contra hcon
      rw [(GetIndexOf_loop_none key _ 0).2 hcon] at hl
      exact Option.noConfusion hl
    rw [← Peek_loop_isSome, Option.isSome_iff_exists] at hex
    obtain ⟨d, hd⟩ := hex
    obtain ⟨i, hij, hlt, he⟩ := GetIndexOf_loop_erase key _ 0 j hl
    have hji : j = i := by omega
    subst hji
    rw [hd]
    cases s with
    | mk nodeList size =>
      cases nodeList with
      | none => simp [Hash.chainAt] at hlt
      | some nl =>
        simp only [Hash.chainAt] at hlt he
        simp only [Hash.Allocated] at hs
        have hv : (⟨hashFunction key % HASH_SIZE, j⟩ : HashIndex).IsInvalid = false := by
          simpa [HashIndex.IsInvalid] using
            mod_ne_SIZE_MAX HASH_SIZE hpos hmax (hashFunction key)
        rw [RemoveAtIndex_in_chain nl size ⟨hashFunction key % HASH_SIZE, j⟩ hv
          (by rw [hs]; exact hb) hlt]
        simp only [he, Option.map_some']

/-- `Remove` returns what `Pop` returns and leaves the object `Pop` leaves. -/
theorem Remove_eq_Pop (hpos : 0 < HASH_SIZE) (hmax : HASH_SIZE ≤ SIZE_MAX)
    (s : Hash K V) (hs : Hash.Allocated HASH_SIZE s) (out : V) (key : K) :
    Hash.Remove HASH_SIZE hashFunction s key
      = some ((Hash.Pop HASH_SIZE hashFunction s out key).1,
          (Hash.Pop HASH_SIZE hashFunction s out key).2.2) := by
  rw [Remove_eq HASH_SIZE hashFunction hpos hmax s hs, Pop_eq]
  cases Hash.Peek.loop key (Hash.chainAt s (hashFunction key % HASH_SIZE)) <;> rfl

theorem Pop_inv (hpos : 0 < HASH_SIZE) (hmax : HASH_SIZE ≤ SIZE_MAX) (s : Hash K V)
    (hs : Hash.Allocated HASH_SIZE s) (hn : s.size = Hash.nodeCount s) (out : V)
    (key : K) :
    Hash.Allocated HASH_SIZE (Hash.Pop HASH_SIZE hashFunction s out key).2.2
      ∧ (Hash.Pop HASH_SIZE hashFunction s out key).2.2.size
          = Hash.nodeCount (Hash.Pop HASH_SIZE hashFunction s out key).2.2
      ∧ (Hash.Pop HASH_SIZE hashFunction s out key).2.2.size
          + (if (Hash.Pop HASH_SIZE hashFunction s out key).1 then 1 else 0) = s.size :=
  RemoveAtIndex_inv HASH_SIZE s _ _ _ hs hn
    (Remove_eq_Pop HASH_SIZE hashFunction hpos hmax s hs out key)

omit [DecidableEq K] in
theorem Clear_eq (s : Hash K V) (hn : s.size = Hash.nodeCount s) :
    Hash.Clear HASH_SIZE s = Hash.ctor := by
  cases s with
  | mk nodeList size =>
    cases nodeList with
    | none =>
      simp only [Hash.nodeCount] at hn
      simp [Hash.Clear, Hash.ctor, hn]
    | some nl => simp [Hash.Clear, Hash.ctor]

/-- Every reachable state has a bucket array of `HASH_SIZE` slots when allocated, and
a `size` equal to its number of nodes. -/
theorem Reachable_inv (hpos : 0 < HASH_SIZE) (hmax : HASH_SIZE ≤ SIZE_MAX)
    (s : Hash K V) (h : Hash.Reachable HASH_SIZE hashFunction s) :
    Hash.Allocated HASH_SIZE s ∧ s.size = Hash.nodeCount s := by
  induction h with
  | ctor => exact ⟨trivial, rfl⟩
  | Push s key input _ ih =>
    exact ⟨Allocated_Push HASH_SIZE hashFunction s ih.1 key input,
      (Push_size HASH_SIZE hashFunction hpos s ih.1 ih.2 key input).1⟩
  | Pop s out key _ ih =>
    have := Pop_inv HASH_SIZE hashFunction hpos hmax s ih.1 ih.2 out key
    exact ⟨this.1, this.2.1⟩
  | Remove s key r t _ hr ih =>
    have := RemoveAtIndex_inv HASH_SIZE s t _ r ih.1 ih.2 hr
    exact ⟨this.1, this.2.1⟩
  | RemoveAtIndex s index r t _ hr ih =>
    have := RemoveAtIndex_inv HASH_SIZE s t index r ih.1 ih.2 hr
    exact ⟨this.1, this.2.1⟩
  | Clear s _ ih =>
    rw [Clear_eq HASH_SIZE s ih.2]
    exact ⟨trivial, rfl⟩

theorem Reachable_three : Hash.Reachable 4 Sample.hash Sample.three := by
  have h : Hash.Push 4 Sample.hash (Hash.Push 4 Sample.hash
      (Hash.Push 4 Sample.hash Hash.ctor 1 "a") 5 "b") 9 "c" = Sample.three := by decide
  rw [← h]
  exact Hash.Reachable.Push _ 9 "c" (Hash.Reachable.Push _ 5 "b"
    (Hash.Reachable.Push _ 1 "a" Hash.Reachable.ctor))

theorem Reachable_mixed : Hash.Reachable 4 Sample.hash Sample.mixed := by
  have h : Hash.Push 4 Sample.hash (Hash.Push 4 Sample.hash
      (Hash.Push 4 Sample.hash (Hash.Push 4 Sample.hash Hash.ctor 5 "z") 2 "t") 1 "a")
      5 "b" = Sample.mixed := by decide
  rw [← h]
  exact Hash.Reachable.Push _ 5 "b" (Hash.Reachable.Push _ 1 "a"
    (Hash.Reachable.Push _ 2 "t" (Hash.Reachable.Push _ 5 "z" Hash.Reachable.ctor)))

theorem Reachable_one : Hash.Reachable 4 Sample.hash Sample.one := by
  have h1 : (Hash.Pop 4 Sample.hash Sample.three "" 9).2.2
      = ⟨some [[], [⟨5, "b"⟩, ⟨1, "a"⟩], [], []], 2⟩ := by decide
  have h2 : Hash.RemoveAtIndex
      (⟨some [[], [⟨5, "b"⟩, ⟨1, "a"⟩], [], []], 2⟩ : Hash Nat String) ⟨1, 1⟩
      = some (true, Sample.one) := by decide
  have r1 := Hash.Reachable.Pop Sample.three "" 9 Reachable_three
  rw [h1] at r1
  exact Hash.Reachable.RemoveAtIndex _ _ _ _ r1 h2

/-- C2. In every state reachable from a freshly constructed map by `Push`, `Pop`,
`Remove`, `RemoveAtIndex` (with a defined outcome) and `Clear`, `Size()` equals the
total number of nodes in all bucket chains, and is `0` when the bucket array is
unallocated. -/
theorem Size_eq_nodeCount (hpos : 0 < HASH_SIZE) (hmax : HASH_SIZE ≤ SIZE_MAX)
    (s : Hash K V) (h : Hash.Reachable HASH_SIZE hashFunction s) :
    Hash.Size s = Hash.nodeCount s ∧ (s.nodeList = none → Hash.Size s = 0) := by
  have hinv := (Reachable_inv HASH_SIZE hashFunction hpos hmax s h).2
  refine ⟨hinv, ?_⟩
  intro hnone
  rw [Hash.Size, hinv, Hash.nodeCount, hnone]

theorem Size_eq_nodeCount_witness :
    Hash.Size Sample.one = Hash.nodeCount Sample.one
      ∧ (Sample.one.nodeList = none → Hash.Size Sample.one = 0) :=
  Size_eq_nodeCount 4 Sample.hash (by decide) (by decide) Sample.one Reachable_one

theorem IsInvalid_sentinel (j : Nat) : (⟨SIZE_MAX, j⟩ : HashIndex).IsInvalid = true := by
  simp [HashIndex.IsInvalid]

theorem RemoveAtIndex_sentinel {K V : Type} (s : Hash K V) (j : Nat) :
    Hash.RemoveAtIndex s ⟨SIZE_MAX, j⟩ = some (false, s) := by
  simp [Hash.RemoveAtIndex, HashIndex.IsInvalid]

theorem unallocated_absent (s : Hash K V) (hnone : s.nodeList = none) (key : K) (out : V) :
    Hash.Peek HASH_SIZE hashFunction s key = none
      ∧ Hash.Pop HASH_SIZE hashFunction s out key = (false, out, s)
      ∧ Hash.Remove HASH_SIZE hashFunction s key = some (false, s)
      ∧ Hash.HasData HASH_SIZE hashFunction s key = false := by
  have hidx : Hash.GetIndexOf HASH_SIZE hashFunction s key = ⟨SIZE_MAX, SIZE_MAX⟩ := by
    simp [Hash.GetIndexOf, hnone, HashIndex.SetInvalid]
  refine ⟨?_, ?_, ?_, ?_⟩
  · simp [Hash.Peek, hnone]
  · simp [Hash.Pop, hnone]
  · rw [Hash.Remove, hidx, RemoveAtIndex_sentinel]
  · rw [Hash.HasData, hidx, IsInvalid_sentinel]
    rfl

/-- C7. For every reachable map state, after `Clear()` the map equals a freshly
constructed map (bucket array unallocated, `size` 0): `Size()` returns 0, and for every
key `Peek` returns null and `HasData` returns false. -/
theorem Clear_gives_fresh_map (hpos : 0 < HASH_SIZE) (hmax : HASH_SIZE ≤ SIZE_MAX)
    (s : Hash K V) (h : Hash.Reachable HASH_SIZE hashFunction s) :
    Hash.Clear HASH_SIZE s = Hash.ctor
      ∧ (Hash.Clear HASH_SIZE s).nodeList = none
      ∧ Hash.Size (Hash.Clear HASH_SIZE s) = 0
      ∧ ∀ key : K, Hash.Peek HASH_SIZE hashFunction (Hash.Clear HASH_SIZE s) key = none
          ∧ Hash.HasData HASH_SIZE hashFunction (Hash.Clear HASH_SIZE s) key = false := by
  rw [Clear_eq HASH_SIZE s (Reachable_inv HASH_SIZE hashFunction hpos hmax s h).2]
  refine ⟨rfl, rfl, rfl, ?_⟩
  intro key
  have hidx : Hash.GetIndexOf HASH_SIZE hashFunction (Hash.ctor : Hash K V) key
      = ⟨SIZE_MAX, SIZE_MAX⟩ := by
    simp [Hash.GetIndexOf, Hash.ctor, HashIndex.SetInvalid]
  refine ⟨by simp [Hash.Peek, Hash.ctor], ?_⟩
  rw [Hash.HasData, hidx, IsInvalid_sentinel]
  rfl

theorem Clear_gives_fresh_map_witness :
    Hash.Clear 4 Sample.mixed = Hash.ctor
      ∧ (Hash.Clear 4 Sample.mixed).nodeList = none
      ∧ Hash.Size (Hash.Clear 4 Sample.mixed) = 0
      ∧ ∀ key : Nat, Hash.Peek 4 Sample.hash (Hash.Clear 4 Sample.mixed) key = none
          ∧ Hash.HasData 4 Sample.hash (Hash.Clear 4 Sample.mixed) key = false :=
  Clear_gives_fresh_map 4 Sample.hash (by decide) (by decide) Sample.mixed
    Reachable_mixed

/-- C8. On a map whose bucket array is not allocated and whose `size` is 0, for every
key: `Peek` returns null, `Pop` returns false, `Remove` returns false and `HasData`
returns false; `Pop` and `Remove` leave the object as it was, so the bucket array is
still unallocated and `Size()` is still 0. -/
theorem unallocated_lookups_report_absence (s : Hash K V) (hnone : s.nodeList = none)
    (hsize : s.size = 0) (key : K) (out : V) :
    Hash.Peek HASH_SIZE hashFunction s key = none
      ∧ Hash.Pop HASH_SIZE hashFunction s out key = (false, out, s)
      ∧ Hash.Remove HASH_SIZE hashFunction s key = some (false, s)
      ∧ Hash.HasData HASH_SIZE hashFunction s key = false
      ∧ (Hash.Pop HASH_SIZE hashFunction s out key).2.2.nodeList = none
      ∧ Hash.Size (Hash.Pop HASH_SIZE hashFunction s out key).2.2 = 0
      ∧ (∀ r t, Hash.Remove HASH_SIZE hashFunction s key = some (r, t) →
          t.nodeList = none ∧ Hash.Size t = 0) := by
  obtain ⟨h1, h2, h3, h4⟩ := unallocated_absent HASH_SIZE hashFunction s hnone key out
  refine ⟨h1, h2, h3, h4, ?_, ?_, ?_⟩
  · rw [h2]
    exact hnone
  · rw [h2]
    exact hsize
  · intro r t hrt
    rw [h3] at hrt
    have ht : s = t := congrArg Prod.snd (Option.some.inj hrt)
    rw [← ht]
    exact ⟨hnone, hsize⟩

theorem unallocated_lookups_report_absence_witness :
    Hash.Peek 4 Sample.hash (Hash.ctor : Hash Nat String) 5 = none
      ∧ Hash.Pop 4 Sample.hash (Hash.ctor : Hash Nat String) "o" 5
          = (false, "o", Hash.ctor)
      ∧ Hash.Remove 4 Sample.hash (Hash.ctor : Hash Nat String) 5
          = some (false, Hash.ctor)
      ∧ Hash.HasData 4 Sample.hash (Hash.ctor : Hash Nat String) 5 = false
      ∧ (Hash.Pop 4 Sample.hash (Hash.ctor : Hash Nat String) "o" 5).2.2.nodeList = none
      ∧ Hash.Size (Hash.Pop 4 Sample.hash (Hash.ctor : Hash Nat String) "o" 5).2.2 = 0
      ∧ (∀ r t, Hash.Remove 4 Sample.hash (Hash.ctor : Hash Nat String) 5 = some (r, t) →
          t.nodeList = none ∧ Hash.Size t = 0) :=
  unallocated_lookups_report_absence 4 Sample.hash Hash.ctor rfl rfl 5 "o"

/-- C3. For every reachable map state and every key with `HasData(key)` true:
`RemoveAtIndex(GetIndexOf(key))` returns true, `Size()` decreases by exactly 1, the
chain of bucket `hashFunction(key) % HASH_SIZE` becomes the old chain with only its
first node whose key equals `key` erased (the other nodes keep their order), and every
other bucket's chain is unchanged. -/
theorem RemoveAtIndex_of_GetIndexOf (hpos : 0 < HASH_SIZE) (hmax : HASH_SIZE ≤ SIZE_MAX)
    (s : Hash K V) (h : Hash.Reachable HASH_SIZE hashFunction s) (key : K)
    (hd : Hash.HasData HASH_SIZE hashFunction s key = true) :
    ∃ t : Hash K V,
      Hash.RemoveAtIndex s (Hash.GetIndexOf HASH_SIZE hashFunction s key) = some (true, t)
      ∧ Hash.Size t + 1 = Hash.Size s
      ∧ t.nodeList ≠ none
      ∧ Hash.chainAt t (hashFunction key % HASH_SIZE)
          = (Hash.chainAt s (hashFunction key % HASH_SIZE)).eraseP
              (fun m => decide (m.string = key))
      ∧ ∀ i, i ≠ hashFunction key % HASH_SIZE → Hash.chainAt t i = Hash.chainAt s i := by
  obtain ⟨hs, hn⟩ := Reachable_inv HASH_SIZE hashFunction hpos hmax s h
  have hb : hashFunction key % HASH_SIZE < HASH_SIZE := Nat.mod_lt _ hpos
  have hrem := Remove_eq HASH_SIZE hashFunction hpos hmax s hs key
  rw [Hash.Remove] at hrem
  rw [HasData_iff HASH_SIZE hashFunction hpos hmax, ← Peek_loop_isSome,
    Option.isSome_iff_exists] at hd
  obtain ⟨d, hpk⟩ := hd
  rw [hpk] at hrem
  simp only at hrem
  have hinv := RemoveAtIndex_inv HASH_SIZE s _ _ true hs hn hrem
  refine ⟨_, hrem, by simpa [Hash.Size] using hinv.2.2, ?_, ?_, ?_⟩
  · cases s with
    | mk nodeList size =>
      cases nodeList with
      | none => simp [Hash.chainAt, Hash.Peek.loop] at hpk
      | some nl => simp
  · cases s with
    | mk nodeList size =>
      cases nodeList with
      | none => simp [Hash.chainAt, Hash.Peek.loop] at hpk
      | some nl =>
        simp only [Hash.Allocated] at hs
        simp only [Hash.chainAt, Option.map_some']
        exact getD_set_self _ _ _ _ (by rw [hs]; exact hb)
  · intro i hi
    cases s with
    | mk nodeList size =>
      cases nodeList with
      | none => rfl
      | some nl =>
        simp only [Hash.chainAt, Option.map_some']
        exact getD_set_ne _ _ _ _ _ (Ne.symm hi)

theorem RemoveAtIndex_of_GetIndexOf_witness :
    ∃ t : Hash Nat String,
      Hash.RemoveAtIndex Sample.mixed (Hash.GetIndexOf 4 Sample.hash Sample.mixed 5)
        = some (true, t)
      ∧ Hash.Size t + 1 = Hash.Size Sample.mixed
      ∧ t.nodeList ≠ none
      ∧ Hash.chainAt t (Sample.hash 5 % 4)
          = (Hash.chainAt Sample.mixed (Sample.hash 5 % 4)).eraseP
              (fun m => decide (m.string = 5))
      ∧ ∀ i, i ≠ Sample.hash 5 % 4 → Hash.chainAt t i = Hash.chainAt Sample.mixed i :=
  RemoveAtIndex_of_GetIndexOf 4 Sample.hash (by decide) (by decide) Sample.mixed
    Reachable_mixed 5 (by decide)

/-! ## GetAsList -/

theorem GetAsList_chain_eq {K V : Type} (chain : List (Node K V)) (itemList : List V)
    (keyList : List K) :
    Hash.GetAsList.chain chain (itemList, keyList)
      = (itemList ++ chain.map Node.data, keyList ++ chain.map Node.string) := by
  induction chain generalizing itemList keyList with
  | nil => simp [Hash.GetAsList.chain]
  | cons node next ih => simp [Hash.GetAsList.chain, ListPush, ih]

theorem GetAsList_loop_eq {K V : Type} (nl : List (List (Node K V))) (n : Nat)
    (itemList : List V) (keyList : List K) :
    (List.range n).foldl
        (fun lists i => Hash.GetAsList.chain (nl.getD i []) lists) (itemList, keyList)
      = (itemList ++ ((List.range n).flatMap (fun i => nl.getD i [])).map Node.data,
          keyList ++ ((List.range n).flatMap (fun i => nl.getD i [])).map Node.string) := by
  induction n with
  | zero => simp
  | succ n ih =>
    rw [List.range_succ, List.foldl_append, ih]
    simp [GetAsList_chain_eq]

/-- C5 (the code at the failing input). On a freshly constructed map, and on a map
just cleared, `GetAsList` returns before clearing its output sequences: they keep
their prior contents, of length 1, while `Size()` is 0. -/
theorem GetAsList_unallocated_keeps_outputs :
    Hash.GetAsList 4 (Hash.ctor : Hash Nat String) ["x"] [7] = (["x"], [7])
      ∧ Hash.Size (Hash.ctor : Hash Nat String) = 0
      ∧ Hash.GetAsList 4 (Hash.Clear 4 Sample.three) ["x"] [7] = (["x"], [7])
      ∧ Hash.Size (Hash.Clear 4 Sample.three) = 0
      ∧ (Hash.GetAsList 4 (Hash.ctor : Hash Nat String) ["x"] [7]).1.length
          ≠ Hash.Size (Hash.ctor : Hash Nat String) := by
  decide

omit [DecidableEq K] in
/-- C6. For every map whose bucket array is allocated, `GetAsList` returns as values
the concatenation, for bucket index `0` up to `HASH_SIZE - 1` in that order, of the
values of each chain head first, and as keys the same concatenation of the keys: the
two sequences have equal length, and at every position they hold the value and the
key of the same node. -/
theorem GetAsList_allocated (s : Hash K V) (hsome : s.nodeList ≠ none)
    (itemList : List V) (keyList : List K) :
    Hash.GetAsList HASH_SIZE s itemList keyList
        = (((List.range HASH_SIZE).flatMap (Hash.chainAt s)).map Node.data,
            ((List.range HASH_SIZE).flatMap (Hash.chainAt s)).map Node.string)
      ∧ (Hash.GetAsList HASH_SIZE s itemList keyList).1.length
          = (Hash.GetAsList HASH_SIZE s itemList keyList).2.length
      ∧ ∀ (i : Nat) (node : Node K V),
          ((List.range HASH_SIZE).flatMap (Hash.chainAt s))[i]? = some node →
          (Hash.GetAsList HASH_SIZE s itemList keyList).1[i]? = some node.data
          ∧ (Hash.GetAsList HASH_SIZE s itemList keyList).2[i]? = some node.string := by
  have heq : Hash.GetAsList HASH_SIZE s itemList keyList
      = (((List.range HASH_SIZE).flatMap (Hash.chainAt s)).map Node.data,
          ((List.range HASH_SIZE).flatMap (Hash.chainAt s)).map Node.string) := by
    cases s with
    | mk nodeList size =>
      cases nodeList with
      | none => exact absurd rfl hsome
      | some nl =>
        simp only [Hash.GetAsList, ListClear, GetAsList_loop_eq, List.nil_append]
        rfl
  rw [heq]
  refine ⟨rfl, by simp, ?_⟩
  intro i node hi
  simp [List.getElem?_map, hi]

theorem GetAsList_allocated_witness :
    Hash.GetAsList 4 Sample.mixed ["x"] [7]
        = (((List.range 4).flatMap (Hash.chainAt Sample.mixed)).map Node.data,
            ((List.range 4).flatMap (Hash.chainAt Sample.mixed)).map Node.string)
      ∧ (Hash.GetAsList 4 Sample.mixed ["x"] [7]).1.length
          = (Hash.GetAsList 4 Sample.mixed ["x"] [7]).2.length
      ∧ ∀ (i : Nat) (node : Node Nat String),
          ((List.range 4).flatMap (Hash.chainAt Sample.mixed))[i]? = some node →
          (Hash.GetAsList 4 Sample.mixed ["x"] [7]).1[i]? = some node.data
          ∧ (Hash.GetAsList 4 Sample.mixed ["x"] [7]).2[i]? = some node.string :=
  GetAsList_allocated 4 Sample.mixed (by decide) ["x"] [7]

/-! ## Sequences of calls -/

/-- A `RemoveAtIndex` call whose handle is the sentinel or within its chain has a
defined outcome. -/
theorem RemoveAtIndex_defined {K V : Type} (s : Hash K V) (index : HashIndex)
    (h : (index.IsInvalid || Hash.indexInChain s index) = true) :
    ∃ r t, Hash.RemoveAtIndex s index = some (r, t) := by
  by_cases hv : index.IsInvalid = true
  · exact ⟨false, s, by simp [Hash.RemoveAtIndex, hv]⟩
  · have hv2 : index.IsInvalid = false := by simpa using hv
    rw [hv2, Bool.false_or] at h
    cases s with
    | mk nodeList size =>
      cases nodeList with
      | none => simp [Hash.indexInChain] at h
      | some nl =>
        simp only [Hash.indexInChain, Bool.and_eq_true, decide_eq_true_eq] at h
        exact ⟨_, _, RemoveAtIndex_in_chain nl size index hv2 h.1 h.2⟩

theorem Remove_defined (hpos : 0 < HASH_SIZE) (hmax : HASH_SIZE ≤ SIZE_MAX)
    (s : Hash K V) (hs : Hash.Allocated HASH_SIZE s) (key : K) :
    ∃ r t, Hash.Remove HASH_SIZE hashFunction s key = some (r, t) := by
  rw [Remove_eq HASH_SIZE hashFunction hpos hmax s hs key]
  exact ⟨_, _, rfl⟩

theorem run_counts (hpos : 0 < HASH_SIZE) (hmax : HASH_SIZE ≤ SIZE_MAX)
    (calls : List (Call K V)) :
    ∀ (s : Hash K V) (pushes removed : Nat), Hash.Allocated HASH_SIZE s →
      s.size = Hash.nodeCount s →
      Hash.handlesInRange HASH_SIZE hashFunction s calls = true →
      ∃ t p r, Hash.run HASH_SIZE hashFunction s pushes removed calls = some (t, p, r)
        ∧ t.size + r + pushes = s.size + p + removed := by
  induction calls with
  | nil =>
    intro s pushes removed _ _ _
    exact ⟨s, pushes, removed, rfl, by omega⟩
  | cons c cs ih =>
    intro s pushes removed hs hn hh
    cases c with
    | Push key input =>
      simp only [Hash.handlesInRange, Hash.call, Bool.true_and] at hh
      obtain ⟨h1, h2⟩ := Push_size HASH_SIZE hashFunction hpos s hs hn key input
      obtain ⟨t, p, r, hrun, hsz⟩ := ih _ (pushes + 1) removed
        (Allocated_Push HASH_SIZE hashFunction s hs key input) h1 hh
      refine ⟨t, p, r, ?_, by omega⟩
      simp only [Hash.run, Hash.call]
      exact hrun
    | Pop out key =>
      simp only [Hash.handlesInRange, Hash.call, Bool.true_and] at hh
      obtain ⟨h1, h2, h3⟩ := Pop_inv HASH_SIZE hashFunction hpos hmax s hs hn out key
      obtain ⟨t, p, r, hrun, hsz⟩ := ih _ pushes
        (if (Hash.Pop HASH_SIZE hashFunction s out key).1 then removed + 1 else removed)
        h1 h2 hh
      refine ⟨t, p, r, ?_, ?_⟩
      · simp only [Hash.run, Hash.call]
        exact hrun
      · cases hb : (Hash.Pop HASH_SIZE hashFunction s out key).1 <;>
          simp [hb] at h3 hsz <;> omega
    | Remove key =>
      obtain ⟨b, u, hrem⟩ := Remove_defined HASH_SIZE hashFunction hpos hmax s hs key
      simp only [Hash.handlesInRange, Hash.call, Bool.true_and, hrem] at hh
      obtain ⟨h1, h2, h3⟩ := RemoveAtIndex_inv HASH_SIZE s u _ b hs hn hrem
      obtain ⟨t, p, r, hrun, hsz⟩ := ih u pushes (if b then removed + 1 else removed)
        h1 h2 hh
      refine ⟨t, p, r, ?_, ?_⟩
      · simp only [Hash.run, Hash.call, hrem]
        exact hrun
      · cases b <;> simp at h3 hsz <;> omega
    | RemoveAtIndex index =>
      simp only [Hash.handlesInRange, Hash.call, Bool.and_eq_true] at hh
      obtain ⟨hcond, hrest⟩ := hh
      obtain ⟨b, u, hrem⟩ := RemoveAtIndex_defined s index hcond
      simp only [hrem] at hrest
      obtain ⟨h1, h2, h3⟩ := RemoveAtIndex_inv HASH_SIZE s u index b hs hn hrem
      obtain ⟨t, p, r, hrun, hsz⟩ := ih u pushes (if b then removed + 1 else removed)
        h1 h2 hrest
      refine ⟨t, p, r, ?_, ?_⟩
      · simp only [Hash.run, Hash.call, hrem]
        exact hrun
      · cases b <;> simp at h3 hsz <;> omega

/-- C9. For every finite sequence of `Push`, `Pop`, `Remove` and `RemoveAtIndex` calls
(each `RemoveAtIndex` handle being the invalid sentinel or within its chain) applied to
a freshly constructed map, the run has a defined outcome and the final `Size()` equals
the number of `Push` calls minus the number of `Pop`, `Remove` and `RemoveAtIndex`
calls that returned true. -/
theorem Size_eq_pushes_minus_removed (hpos : 0 < HASH_SIZE) (hmax : HASH_SIZE ≤ SIZE_MAX)
    (calls : List (Call K V))
    (hh : Hash.handlesInRange HASH_SIZE hashFunction Hash.ctor calls = true) :
    ∃ t pushes removed,
      Hash.run HASH_SIZE hashFunction Hash.ctor 0 0 calls = some (t, pushes, removed)
      ∧ removed ≤ pushes
      ∧ Hash.Size t = pushes - removed := by
  obtain ⟨t, p, r, hrun, hsz⟩ := run_counts HASH_SIZE hashFunction hpos hmax calls
    Hash.ctor 0 0 trivial rfl hh
  have h0 : (Hash.ctor : Hash K V).size = 0 := rfl
  refine ⟨t, p, r, hrun, ?_, ?_⟩
  · omega
  · show t.size = p - r
    omega

theorem Size_eq_pushes_minus_removed_witness :
    ∃ t pushes removed,
      Hash.run 4 Sample.hash Hash.ctor 0 0
          [Call.Push 1 "a", Call.Push 5 "b", Call.Push 9 "c", Call.Pop "" 9,
            Call.Remove 7, Call.RemoveAtIndex ⟨1, 1⟩, Call.RemoveAtIndex ⟨SIZE_MAX, 0⟩]
        = some (t, pushes, removed)
      ∧ removed ≤ pushes
      ∧ Hash.Size t = pushes - removed :=
  Size_eq_pushes_minus_removed 4 Sample.hash (by decide) (by decide)
    [Call.Push 1 "a", Call.Push 5 "b", Call.Push 9 "c", Call.Pop "" 9,
      Call.Remove 7, Call.RemoveAtIndex ⟨1, 1⟩, Call.RemoveAtIndex ⟨SIZE_MAX, 0⟩]
    (by decide)

/-! ## Failed removals, Pop against Remove, access by handle -/

theorem Peek_loop_none (key : K) (chain : List (Node K V))
    (hno : ∀ node ∈ chain, node.string ≠ key) : Hash.Peek.loop key chain = none := by
  have h : ¬ (Hash.Peek.loop key chain).isSome = true := by
    rw [Peek_loop_isSome]
    rintro ⟨node, hmem, hk⟩
    exact hno node hmem hk
  simpa using h

/-- C11. A failed removal is a no-op: for every reachable map state, if no node has a
key equal to `key` then `Pop(key)` and `Remove(key)` return false, and `RemoveAtIndex`
of an invalid (sentinel) handle returns false; in each case the object (bucket array,
every chain, `size`) is unchanged, and `Pop` leaves `out` unmodified. -/
theorem failed_removal_is_noop (hpos : 0 < HASH_SIZE) (hmax : HASH_SIZE ≤ SIZE_MAX)
    (s : Hash K V) (h : Hash.Reachable HASH_SIZE hashFunction s) (key : K) (out : V)
    (hno : ∀ i, ∀ node ∈ Hash.chainAt s i, node.string ≠ key) :
    Hash.Pop HASH_SIZE hashFunction s out key = (false, out, s)
      ∧ Hash.Remove HASH_SIZE hashFunction s key = some (false, s)
      ∧ ∀ index : HashIndex, index.IsInvalid = true →
          Hash.RemoveAtIndex s index = some (false, s) := by
  have hs := (Reachable_inv HASH_SIZE hashFunction hpos hmax s h).1
  have hpk := Peek_loop_none key _ (hno (hashFunction key % HASH_SIZE))
  refine ⟨?_, ?_, ?_⟩
  · rw [Pop_eq, hpk]
  · rw [Remove_eq HASH_SIZE hashFunction hpos hmax s hs, hpk]
  · intro index hv
    simp [Hash.RemoveAtIndex, hv]

theorem failed_removal_is_noop_witness :
    Hash.Pop 4 Sample.hash Sample.mixed "o" 9 = (false, "o", Sample.mixed)
      ∧ Hash.Remove 4 Sample.hash Sample.mixed 9 = some (false, Sample.mixed)
      ∧ ∀ index : HashIndex, index.IsInvalid = true →
          Hash.RemoveAtIndex Sample.mixed index = some (false, Sample.mixed) :=
  failed_removal_is_noop 4 Sample.hash (by decide) (by decide) Sample.mixed
    Reachable_mixed 9 "o" (by
      intro i node hmem
      match i, hmem with
      | 0, hmem => simp [Hash.chainAt, Sample.mixed] at hmem
      | 1, hmem =>
        simp [Hash.chainAt, Sample.mixed] at hmem
        rcases hmem with rfl | rfl | rfl <;> decide
      | 2, hmem =>
        simp [Hash.chainAt, Sample.mixed] at hmem
        subst hmem
        decide
      | 3, hmem => simp [Hash.chainAt, Sample.mixed] at hmem
      | n + 4, hmem => simp [Hash.chainAt, Sample.mixed] at hmem)

/-- C12. `Pop` and `Remove` are the same removal: for every reachable map state and
key, `Remove(key)` returns the boolean `Pop(out, key)` returns and leaves the object
`Pop` leaves (same bucket array, same chains, same `size`); when they return true, the
value `Pop` writes to `out` is the value `Peek(key)` designated before the call. -/
theorem Pop_and_Remove_agree (hpos : 0 < HASH_SIZE) (hmax : HASH_SIZE ≤ SIZE_MAX)
    (s : Hash K V) (h : Hash.Reachable HASH_SIZE hashFunction s) (out : V) (key : K) :
    Hash.Remove HASH_SIZE hashFunction s key
        = some ((Hash.Pop HASH_SIZE hashFunction s out key).1,
            (Hash.Pop HASH_SIZE hashFunction s out key).2.2)
      ∧ ((Hash.Pop HASH_SIZE hashFunction s out key).1 = true →
          Hash.Peek HASH_SIZE hashFunction s key
            = some (Hash.Pop HASH_SIZE hashFunction s out key).2.1) := by
  have hs := (Reachable_inv HASH_SIZE hashFunction hpos hmax s h).1
  refine ⟨Remove_eq_Pop HASH_SIZE hashFunction hpos hmax s hs out key, ?_⟩
  rw [Pop_eq, Peek_eq]
  cases Hash.Peek.loop key (Hash.chainAt s (hashFunction key % HASH_SIZE)) <;> simp

theorem Pop_and_Remove_agree_witness :
    Hash.Remove 4 Sample.hash Sample.mixed 5
        = some ((Hash.Pop 4 Sample.hash Sample.mixed "o" 5).1,
            (Hash.Pop 4 Sample.hash Sample.mixed "o" 5).2.2)
      ∧ ((Hash.Pop 4 Sample.hash Sample.mixed "o" 5).1 = true →
          Hash.Peek 4 Sample.hash Sample.mixed 5
            = some (Hash.Pop 4 Sample.hash Sample.mixed "o" 5).2.1) :=
  Pop_and_Remove_agree 4 Sample.hash (by decide) (by decide) Sample.mixed
    Reachable_mixed "o" 5

theorem GetIndexOf_loop_node (key : K) (chain : List (Node K V)) (n j : Nat)
    (h : Hash.GetIndexOf.loop key chain n = some j) :
    ∃ i node, j = n + i ∧ Hash.nodeAtIndex chain i = some node ∧ node.string = key
      ∧ Hash.Peek.loop key chain = some node.data := by
  induction chain generalizing n with
  | nil => simp [Hash.GetIndexOf.loop] at h
  | cons node next ih =>
    by_cases hk : node.string = key
    · simp [Hash.GetIndexOf.loop, hk] at h
      exact ⟨0, node, by omega, rfl, hk, by simp [Hash.Peek.loop, hk]⟩
    · simp [Hash.GetIndexOf.loop, hk] at h
      obtain ⟨i, m, hj, hnode, hm, hpk⟩ := ih (n + 1) h
      exact ⟨i + 1, m, by omega, by simpa [Hash.nodeAtIndex] using hnode, hm,
        by simpa [Hash.Peek.loop, hk] using hpk⟩

/-- C13. For every reachable map state and key with `HasData(key)` true, with
`h = GetIndexOf(key)`: no assertion of `ItemAtIndex(h)` or `KeyAtIndex(h)` fails,
`KeyAtIndex(h)` returns a key equal to `key`, and `ItemAtIndex(h)` returns the value
that `Peek(key)` designates. -/
theorem access_at_GetIndexOf (hpos : 0 < HASH_SIZE) (hmax : HASH_SIZE ≤ SIZE_MAX)
    (s : Hash K V) (h : Hash.Reachable HASH_SIZE hashFunction s) (key : K)
    (hd : Hash.HasData HASH_SIZE hashFunction s key = true) :
    Hash.KeyAtIndex s (Hash.GetIndexOf HASH_SIZE hashFunction s key) = some key
      ∧ ∃ v, Hash.ItemAtIndex s (Hash.GetIndexOf HASH_SIZE hashFunction s key) = some v
          ∧ Hash.Peek HASH_SIZE hashFunction s key = some v := by
  have hs := (Reachable_inv HASH_SIZE hashFunction hpos hmax s h).1
  have hb : hashFunction key % HASH_SIZE < HASH_SIZE := Nat.mod_lt _ hpos
  rw [HasData_iff HASH_SIZE hashFunction hpos hmax] at hd
  rw [GetIndexOf_eq, Peek_eq]
  cases hl : Hash.GetIndexOf.loop key
      (Hash.chainAt s (hashFunction key % HASH_SIZE)) 0 with
  | none => exact absurd hd ((GetIndexOf_loop_none key _ 0).1 hl)
  | some j =>
    obtain ⟨i, node, hj, hnode, hk, hpk⟩ := GetIndexOf_loop_node key _ 0 j hl
    have hji : j = i := by omega
    subst hji
    cases s with
    | mk nodeList size =>
      cases nodeList with
      | none => simp [Hash.chainAt, Hash.nodeAtIndex] at hnode
      | some nl =>
        simp only [Hash.Allocated] at hs
        simp only [Hash.chainAt] at hnode hpk ⊢
        have hlt : hashFunction key % HASH_SIZE < nl.length := by rw [hs]; exact hb
        refine ⟨?_, node.data, ?_, hpk⟩
        · simp only [Hash.KeyAtIndex, hlt, if_true, hnode, Option.map_some', hk]
        · simp only [Hash.ItemAtIndex, hlt, if_true, hnode, Option.map_some']

theorem access_at_GetIndexOf_witness :
    Hash.KeyAtIndex Sample.mixed (Hash.GetIndexOf 4 Sample.hash Sample.mixed 1) = some 1
      ∧ ∃ v, Hash.ItemAtIndex Sample.mixed (Hash.GetIndexOf 4 Sample.hash Sample.mixed 1)
            = some v
          ∧ Hash.Peek 4 Sample.hash Sample.mixed 1 = some v :=
  access_at_GetIndexOf 4 Sample.hash (by decide) (by decide) Sample.mixed
    Reachable_mixed 1 (by decide)

/-! ## Nodes stay in their bucket -/

omit [DecidableEq K] in
theorem RemoveAtIndex_loop_mem (chain c : List (Node K V)) (j : Nat)
    (h : Hash.RemoveAtIndex.loop chain j = some c) : ∀ x ∈ c, x ∈ chain := by
  induction j generalizing chain c with
  | zero =>
    match chain, h with
    | last :: node :: next, h =>
      simp [Hash.RemoveAtIndex.loop] at h
      subst h
      intro x hx
      simp at hx ⊢
      rcases hx with hx | hx
      · exact Or.inl hx
      · exact Or.inr (Or.inr hx)
  | succ j ih =>
    match chain, h with
    | last :: node :: next, h =>
      simp only [Hash.RemoveAtIndex.loop] at h
      cases hl : Hash.RemoveAtIndex.loop (node :: next) j with
      | none => simp [hl] at h
      | some c2 =>
        simp [hl] at h
        subst h
        intro x hx
        rcases List.mem_cons.1 hx with hx | hx
        · exact List.mem_cons.2 (Or.inl hx)
        · exact List.mem_cons.2 (Or.inr (ih (node :: next) c2 hl x hx))

omit [DecidableEq K] in
/-- The outcome of a defined `RemoveAtIndex` call: either it returns false and the
object is unchanged, or it returns true, `size` is decremented and the chain of bucket
`primaryIndex` is replaced by a chain of nodes of the old one. -/
theorem RemoveAtIndex_shape (s t : Hash K V) (index : HashIndex) (r : Bool)
    (h : Hash.RemoveAtIndex s index = some (r, t)) :
    (r = false ∧ t = s)
      ∨ (r = true ∧ ∃ nl c, s.nodeList = some nl ∧ index.primaryIndex < nl.length
          ∧ (∀ x ∈ c, x ∈ nl.getD index.primaryIndex [])
          ∧ t = ⟨some (nl.set index.primaryIndex c), s.size - 1⟩) := by
  cases s with
  | mk nodeList size =>
    simp only [Hash.RemoveAtIndex] at h
    by_cases hv : index.IsInvalid = true
    · simp only [hv, if_true, Option.some.injEq, Prod.mk.injEq] at h
      exact Or.inl ⟨h.1.symm, h.2.symm⟩
    · have hv2 : index.IsInvalid = false := by simpa using hv
      simp only [hv2, Bool.false_eq_true, if_false] at h
      cases nodeList with
      | none => simp at h
      | some nl =>
        by_cases hp : index.primaryIndex < nl.length
        · simp only [hp, if_true, Hash.ClearIndex, ClearIndex_loop_eq] at h
          generalize hch : nl.getD index.primaryIndex [] = chain at h
          match chain, h, hch with
          | [], h, hch =>
            simp only [Option.some.injEq, Prod.mk.injEq] at h
            exact Or.inl ⟨h.1.symm, h.2.symm⟩
          | [node], h, hch =>
            simp only [Option.some.injEq, Prod.mk.injEq, List.length_singleton] at h
            exact Or.inr ⟨h.1.symm, nl, [], rfl, hp, by simp, h.2.symm⟩
          | node :: node2 :: rest, h, hch =>
            by_cases h0 : index.secondaryIndex = 0
            · simp only [h0, if_true, Option.some.injEq, Prod.mk.injEq] at h
              refine Or.inr ⟨h.1.symm, nl, node2 :: rest, rfl, hp, ?_, h.2.symm⟩
              intro x hx
              rw [hch]
              exact List.mem_cons.2 (Or.inr hx)
            · simp only [h0, if_false] at h
              cases hl : Hash.RemoveAtIndex.loop (node :: node2 :: rest)
                  (index.secondaryIndex - 1) with
              | none => simp [hl] at h
              | some c =>
                simp only [hl, Option.some.injEq, Prod.mk.injEq] at h
                exact Or.inr ⟨h.1.symm, nl, c, rfl, hp,
                  hch ▸ RemoveAtIndex_loop_mem _ c _ hl, h.2.symm⟩
        · simp [hp] at h

omit [DecidableEq K] in
theorem RemoveAtIndex_mem (s t : Hash K V) (index : HashIndex) (r : Bool)
    (h : Hash.RemoveAtIndex s index = some (r, t)) :
    ∀ i, ∀ node ∈ Hash.chainAt t i, node ∈ Hash.chainAt s i := by
  rcases RemoveAtIndex_shape s t index r h with ⟨_, ht⟩ | ⟨_, nl, c, hnl, hp, hc, ht⟩
  · subst ht
    intro i node hmem
    exact hmem
  · intro i node hmem
    cases s with
    | mk nodeList size =>
      simp only at hnl
      subst hnl ht
      simp only [Hash.chainAt] at hmem ⊢
      by_cases hi : index.primaryIndex = i
      · subst hi
        rw [getD_set_self _ _ _ _ hp] at hmem
        exact hc node hmem
      · rw [getD_set_ne _ _ _ _ _ hi] at hmem
        exact hmem

theorem Pop_mem (hpos : 0 < HASH_SIZE) (hmax : HASH_SIZE ≤ SIZE_MAX) (s : Hash K V)
    (hs : Hash.Allocated HASH_SIZE s) (out : V) (key : K) :
    ∀ i, ∀ node ∈ Hash.chainAt (Hash.Pop HASH_SIZE hashFunction s out key).2.2 i,
      node ∈ Hash.chainAt s i :=
  RemoveAtIndex_mem s _ _ _ (Remove_eq_Pop HASH_SIZE hashFunction hpos hmax s hs out key)

omit [DecidableEq K] in
theorem Push_mem (hpos : 0 < HASH_SIZE) (s : Hash K V) (hs : Hash.Allocated HASH_SIZE s)
    (key : K) (input : V) :
    ∀ i, ∀ node ∈ Hash.chainAt (Hash.Push HASH_SIZE hashFunction s key input) i,
      node ∈ Hash.chainAt s i
        ∨ (node = ⟨key, input⟩ ∧ i = hashFunction key % HASH_SIZE) := by
  intro i node hmem
  by_cases hi : i = hashFunction key % HASH_SIZE
  · subst hi
    rw [chainAt_Push_self HASH_SIZE hashFunction hpos s hs] at hmem
    rcases List.mem_cons.1 hmem with hx | hx
    · exact Or.inr ⟨hx, rfl⟩
    · exact Or.inl hx
  · rw [chainAt_Push_ne HASH_SIZE hashFunction s key input i hi] at hmem
    exact Or.inl hmem

/-- In every reachable state a node of bucket `i` has a key hashing to `i`. -/
theorem Reachable_bucket (hpos : 0 < HASH_SIZE) (hmax : HASH_SIZE ≤ SIZE_MAX)
    (s : Hash K V) (h : Hash.Reachable HASH_SIZE hashFunction s) :
    ∀ i, ∀ node ∈ Hash.chainAt s i, hashFunction node.string % HASH_SIZE = i := by
  induction h with
  | ctor =>
    intro i node hmem
    simp [Hash.chainAt, Hash.ctor] at hmem
  | Push s key input hr ih =>
    intro i node hmem
    have hs := (Reachable_inv HASH_SIZE hashFunction hpos hmax s hr).1
    rcases Push_mem HASH_SIZE hashFunction hpos s hs key input i node hmem with
      hx | ⟨hx, hi⟩
    · exact ih i node hx
    · rw [hx, hi]
  | Pop s out key hr ih =>
    intro i node hmem
    have hs := (Reachable_inv HASH_SIZE hashFunction hpos hmax s hr).1
    exact ih i node (Pop_mem HASH_SIZE hashFunction hpos hmax s hs out key i node hmem)
  | Remove s key r t _ hrem ih =>
    intro i node hmem
    exact ih i node (RemoveAtIndex_mem s t _ r hrem i node hmem)
  | RemoveAtIndex s index r t _ hrem ih =>
    intro i node hmem
    exact ih i node (RemoveAtIndex_mem s t index r hrem i node hmem)
  | Clear s hr _ =>
    intro i node hmem
    rw [Clear_eq HASH_SIZE s (Reachable_inv HASH_SIZE hashFunction hpos hmax s hr).2]
      at hmem
    simp [Hash.chainAt, Hash.ctor] at hmem

/-- C14. In every state reachable from a freshly constructed map by `Push`, `Pop`,
`Remove`, `RemoveAtIndex` (with a defined outcome) and `Clear`, every node stored in
the chain of bucket `i` has a key with `hashFunction(key) % HASH_SIZE = i`; and no
operation moves a node to another bucket: after `Push` the nodes of a bucket are its
old nodes, plus the new node in the bucket of its key, and after `Pop`, `Remove` or
`RemoveAtIndex` the nodes of a bucket are nodes it held before. -/
theorem nodes_stay_in_their_bucket (hpos : 0 < HASH_SIZE) (hmax : HASH_SIZE ≤ SIZE_MAX)
    (s : Hash K V) (h : Hash.Reachable HASH_SIZE hashFunction s) :
    (∀ i, ∀ node ∈ Hash.chainAt s i, hashFunction node.string % HASH_SIZE = i)
      ∧ (∀ (key : K) (input : V) (i : Nat),
          ∀ node ∈ Hash.chainAt (Hash.Push HASH_SIZE hashFunction s key input) i,
            node ∈ Hash.chainAt s i
              ∨ (node = ⟨key, input⟩ ∧ i = hashFunction key % HASH_SIZE))
      ∧ (∀ (out : V) (key : K) (i : Nat),
          ∀ node ∈ Hash.chainAt (Hash.Pop HASH_SIZE hashFunction s out key).2.2 i,
            node ∈ Hash.chainAt s i)
      ∧ (∀ (key : K) (r : Bool) (t : Hash K V),
          Hash.Remove HASH_SIZE hashFunction s key = some (r, t) →
            ∀ i, ∀ node ∈ Hash.chainAt t i, node ∈ Hash.chainAt s i)
      ∧ (∀ (index : HashIndex) (r : Bool) (t : Hash K V),
          Hash.RemoveAtIndex s index = some (r, t) →
            ∀ i, ∀ node ∈ Hash.chainAt t i, node ∈ Hash.chainAt s i) := by
  have hs := (Reachable_inv HASH_SIZE hashFunction hpos hmax s h).1
  exact ⟨Reachable_bucket HASH_SIZE hashFunction hpos hmax s h,
    fun key input => Push_mem HASH_SIZE hashFunction hpos s hs key input,
    fun out key => Pop_mem HASH_SIZE hashFunction hpos hmax s hs out key,
    fun key r t hrem => RemoveAtIndex_mem s t _ r hrem,
    fun index r t hrem => RemoveAtIndex_mem s t index r hrem⟩

theorem nodes_stay_in_their_bucket_witness :
    (∀ i, ∀ node ∈ Hash.chainAt Sample.mixed i, Sample.hash node.string % 4 = i)
      ∧ (∀ (key : Nat) (input : String) (i : Nat),
          ∀ node ∈ Hash.chainAt (Hash.Push 4 Sample.hash Sample.mixed key input) i,
            node ∈ Hash.chainAt Sample.mixed i
              ∨ (node = ⟨key, input⟩ ∧ i = Sample.hash key % 4))
      ∧ (∀ (out : String) (key : Nat) (i : Nat),
          ∀ node ∈ Hash.chainAt (Hash.Pop 4 Sample.hash Sample.mixed out key).2.2 i,
            node ∈ Hash.chainAt Sample.mixed i)
      ∧ (∀ (key : Nat) (r : Bool) (t : Hash Nat String),
          Hash.Remove 4 Sample.hash Sample.mixed key = some (r, t) →
            ∀ i, ∀ node ∈ Hash.chainAt t i, node ∈ Hash.chainAt Sample.mixed i)
      ∧ (∀ (index : HashIndex) (r : Bool) (t : Hash Nat String),
          Hash.RemoveAtIndex Sample.mixed index = some (r, t) →
            ∀ i, ∀ node ∈ Hash.chainAt t i, node ∈ Hash.chainAt Sample.mixed i) :=
  nodes_stay_in_their_bucket 4 Sample.hash (by decide) (by decide) Sample.mixed
    Reachable_mixed

/-! ## The concrete scenario, Push as head insertion, removal by handle -/

/-- C15. Concrete scenario with `HASH_SIZE = 4` and `hash(x) = x` on a fresh map:
after `Push(1,"a")`, `Push(5,"b")`, `Push(9,"c")` bucket 1 holds the chain 9, 5, 1 head
to tail and all other buckets are empty; `Peek(5)` returns `"b"`; `Pop(9)` returns true
with `"c"`, leaving chain 5, 1 and `Size() = 2`; `GetIndexOf(1)` then returns
`(primaryIndex = 1, secondaryIndex = 1)`; `RemoveAtIndex` on that handle returns true
and leaves only key 5 with `Size() = 1`. -/
theorem concrete_scenario :
    Hash.Push 4 Sample.hash (Hash.Push 4 Sample.hash
        (Hash.Push 4 Sample.hash Hash.ctor 1 "a") 5 "b") 9 "c"
      = ⟨some [[], [⟨9, "c"⟩, ⟨5, "b"⟩, ⟨1, "a"⟩], [], []], 3⟩
    ∧ Hash.Peek 4 Sample.hash
        ⟨some [[], [⟨9, "c"⟩, ⟨5, "b"⟩, ⟨1, "a"⟩], [], []], 3⟩ 5 = some "b"
    ∧ Hash.Pop 4 Sample.hash
        ⟨some [[], [⟨9, "c"⟩, ⟨5, "b"⟩, ⟨1, "a"⟩], [], []], 3⟩ "" 9
      = (true, "c", ⟨some [[], [⟨5, "b"⟩, ⟨1, "a"⟩], [], []], 2⟩)
    ∧ Hash.Size (⟨some [[], [⟨5, "b"⟩, ⟨1, "a"⟩], [], []], 2⟩ : Hash Nat String) = 2
    ∧ Hash.GetIndexOf 4 Sample.hash
        (⟨some [[], [⟨5, "b"⟩, ⟨1, "a"⟩], [], []], 2⟩ : Hash Nat String) 1 = ⟨1, 1⟩
    ∧ Hash.RemoveAtIndex
        (⟨some [[], [⟨5, "b"⟩, ⟨1, "a"⟩], [], []], 2⟩ : Hash Nat String) ⟨1, 1⟩
      = some (true, ⟨some [[], [⟨5, "b"⟩], [], []], 1⟩)
    ∧ Hash.Size (⟨some [[], [⟨5, "b"⟩], [], []], 1⟩ : Hash Nat String) = 1 := by
  decide

omit [DecidableEq K] in
/-- C16. `Push` always succeeds as a head insertion: for every map state, key and
value, after `Push(key, input)` the bucket array is allocated, the chain of bucket
`hashFunction(key) % HASH_SIZE` is the node `(key, input)` followed by the old chain of
that bucket (empty if the array was unallocated), every other bucket's chain is
unchanged, and `Size()` has increased by exactly 1, whether or not a key equal to
`key` was already present. -/
theorem Push_is_head_insertion (hpos : 0 < HASH_SIZE) (s : Hash K V)
    (hs : Hash.Allocated HASH_SIZE s) (key : K) (input : V) :
    (Hash.Push HASH_SIZE hashFunction s key input).nodeList ≠ none
      ∧ Hash.chainAt (Hash.Push HASH_SIZE hashFunction s key input)
          (hashFunction key % HASH_SIZE)
        = ⟨key, input⟩ :: Hash.chainAt s (hashFunction key % HASH_SIZE)
      ∧ (s.nodeList = none → Hash.chainAt s (hashFunction key % HASH_SIZE) = [])
      ∧ (∀ i, i ≠ hashFunction key % HASH_SIZE →
          Hash.chainAt (Hash.Push HASH_SIZE hashFunction s key input) i = Hash.chainAt s i)
      ∧ Hash.Size (Hash.Push HASH_SIZE hashFunction s key input) = Hash.Size s + 1 := by
  refine ⟨?_, chainAt_Push_self HASH_SIZE hashFunction hpos s hs key input, ?_,
    fun i hi => chainAt_Push_ne HASH_SIZE hashFunction s key input i hi, ?_⟩
  · rw [Push_eq]
    simp
  · intro hnone
    simp [Hash.chainAt, hnone]
  · rw [Push_eq]
    rfl

theorem Push_is_head_insertion_witness :
    (Hash.Push 4 Sample.hash Sample.mixed 5 "w").nodeList ≠ none
      ∧ Hash.chainAt (Hash.Push 4 Sample.hash Sample.mixed 5 "w") (Sample.hash 5 % 4)
        = ⟨5, "w"⟩ :: Hash.chainAt Sample.mixed (Sample.hash 5 % 4)
      ∧ (Sample.mixed.nodeList = none → Hash.chainAt Sample.mixed (Sample.hash 5 % 4) = [])
      ∧ (∀ i, i ≠ Sample.hash 5 % 4 →
          Hash.chainAt (Hash.Push 4 Sample.hash Sample.mixed 5 "w") i
            = Hash.chainAt Sample.mixed i)
      ∧ Hash.Size (Hash.Push 4 Sample.hash Sample.mixed 5 "w")
          = Hash.Size Sample.mixed + 1 :=
  Push_is_head_insertion 4 Sample.hash (by decide) Sample.mixed
    (by simp [Hash.Allocated, Sample.mixed]) 5 "w"

omit [DecidableEq K] in
/-- C17. For every allocated map (whose `size` counts its nodes) and every handle
`(b, j)` with `b < HASH_SIZE` and `j` less than the length of chain `b`:
`RemoveAtIndex` returns true, chain `b` becomes the old chain with exactly the node at
0-based position `j` erased (when `j = 0` the head is replaced by its successor, or the
bucket becomes empty), all other buckets are unchanged and `Size()` decreases by
exactly 1. -/
theorem RemoveAtIndex_erases_position (hmax : HASH_SIZE ≤ SIZE_MAX) (s : Hash K V)
    (hsome : s.nodeList ≠ none) (hs : Hash.Allocated HASH_SIZE s)
    (hn : s.size = Hash.nodeCount s) (b j : Nat) (hb : b < HASH_SIZE)
    (hj : j < (Hash.chainAt s b).length) :
    ∃ t : Hash K V,
      Hash.RemoveAtIndex s ⟨b, j⟩ = some (true, t)
      ∧ t.nodeList ≠ none
      ∧ Hash.chainAt t b = (Hash.chainAt s b).eraseIdx j
      ∧ (j = 0 → Hash.chainAt t b = (Hash.chainAt s b).tail)
      ∧ (∀ i, i ≠ b → Hash.chainAt t i = Hash.chainAt s i)
      ∧ Hash.Size t + 1 = Hash.Size s := by
  cases s with
  | mk nodeList size =>
    cases nodeList with
    | none => exact absurd rfl hsome
    | some nl =>
      simp only [Hash.Allocated] at hs
      simp only [Hash.nodeCount] at hn
      simp only [Hash.chainAt] at hj
      have hp : b < nl.length := by rw [hs]; exact hb
      have hv : (⟨b, j⟩ : HashIndex).IsInvalid = false := by
        have hne : b ≠ SIZE_MAX := by omega
        simpa [HashIndex.IsInvalid] using hne
      have hle := length_getD_le_sum nl b
      refine ⟨_, RemoveAtIndex_in_chain nl size ⟨b, j⟩ hv hp hj, by simp, ?_, ?_, ?_, ?_⟩
      · simp only [Hash.chainAt]
        exact getD_set_self _ _ _ _ hp
      · intro h0
        subst h0
        simp only [Hash.chainAt]
        rw [getD_set_self _ _ _ _ hp]
        cases nl.getD b [] <;> rfl
      · intro i hi
        simp only [Hash.chainAt]
        exact getD_set_ne _ _ _ _ _ (Ne.symm hi)
      · show size - 1 + 1 = size
        omega

theorem RemoveAtIndex_erases_position_witness :
    ∃ t : Hash Nat String,
      Hash.RemoveAtIndex Sample.mixed ⟨1, 2⟩ = some (true, t)
      ∧ t.nodeList ≠ none
      ∧ Hash.chainAt t 1 = (Hash.chainAt Sample.mixed 1).eraseIdx 2
      ∧ (2 = 0 → Hash.chainAt t 1 = (Hash.chainAt Sample.mixed 1).tail)
      ∧ (∀ i, i ≠ 1 → Hash.chainAt t i = Hash.chainAt Sample.mixed i)
      ∧ Hash.Size t + 1 = Hash.Size Sample.mixed :=
  RemoveAtIndex_erases_position 4 (by decide) Sample.mixed (by decide)
    (by simp [Hash.Allocated, Sample.mixed]) (by decide) 1 2 (by decide) (by decide)

omit [DecidableEq K] in
/-- C20. When the chain of bucket `b` holds exactly one node, `RemoveAtIndex` with any
non-sentinel handle `(b, j)` ignores `secondaryIndex`: for every `j`, also `j >= 1`
which points past the end of the chain, it removes that single node, empties the
bucket, leaves the other buckets as they were, decrements `Size()` by 1 and returns
true; and when bucket `b` is empty it returns false and changes nothing, for every
`j`. -/
theorem RemoveAtIndex_ignores_secondaryIndex_on_short_chain (s : Hash K V)
    (nl : List (List (Node K V))) (hnl : s.nodeList = some nl)
    (hn : s.size = Hash.nodeCount s) (b j : Nat)
    (hv : (⟨b, j⟩ : HashIndex).IsInvalid = false) (hb : b < nl.length) :
    (∀ node, Hash.chainAt s b = [node] →
        ∃ t : Hash K V,
          Hash.RemoveAtIndex s ⟨b, j⟩ = some (true, t)
          ∧ Hash.chainAt t b = []
          ∧ (∀ i, i ≠ b → Hash.chainAt t i = Hash.chainAt s i)
          ∧ Hash.Size t + 1 = Hash.Size s)
      ∧ (Hash.chainAt s b = [] → Hash.RemoveAtIndex s ⟨b, j⟩ = some (false, s)) := by
  cases s with
  | mk nodeList size =>
    simp only at hnl
    subst hnl
    simp only [Hash.nodeCount] at hn
    have hle := length_getD_le_sum nl b
    refine ⟨?_, ?_⟩
    · intro node hch
      simp only [Hash.chainAt] at hch
      rw [hch] at hle
      refine ⟨⟨some (nl.set b []), size - 1⟩, ?_, ?_, ?_, ?_⟩
      · simp only [Hash.RemoveAtIndex, hv, Bool.false_eq_true, if_false, hb, if_true, hch,
          Hash.ClearIndex, ClearIndex_loop_eq, List.length_singleton]
      · simp only [Hash.chainAt]
        exact getD_set_self _ _ _ _ hb
      · intro i hi
        simp only [Hash.chainAt]
        exact getD_set_ne _ _ _ _ _ (Ne.symm hi)
      · show size - 1 + 1 = size
        simp only [List.length_singleton] at hle
        omega
    · intro hch
      simp only [Hash.chainAt] at hch
      simp only [Hash.RemoveAtIndex, hv, Bool.false_eq_true, if_false, hb, if_true, hch]

theorem RemoveAtIndex_ignores_secondaryIndex_on_short_chain_witness :
    (∀ node, Hash.chainAt Sample.mixed 2 = [node] →
        ∃ t : Hash Nat String,
          Hash.RemoveAtIndex Sample.mixed ⟨2, 7⟩ = some (true, t)
          ∧ Hash.chainAt t 2 = []
          ∧ (∀ i, i ≠ 2 → Hash.chainAt t i = Hash.chainAt Sample.mixed i)
          ∧ Hash.Size t + 1 = Hash.Size Sample.mixed)
      ∧ (Hash.chainAt Sample.mixed 2 = [] →
          Hash.RemoveAtIndex Sample.mixed ⟨2, 7⟩ = some (false, Sample.mixed)) :=
  RemoveAtIndex_ignores_secondaryIndex_on_short_chain Sample.mixed
    [[], [⟨5, "b"⟩, ⟨1, "a"⟩, ⟨5, "z"⟩], [⟨2, "t"⟩], []] rfl (by decide) 2 7
    (by decide) (by decide)

/-! ## Allocation status, completeness of lookup -/

theorem Pop_nodeList_none (s : Hash K V) (out : V) (key : K) :
    (Hash.Pop HASH_SIZE hashFunction s out key).2.2.nodeList = none
      ↔ s.nodeList = none := by
  rw [Pop_eq]
  cases Hash.Peek.loop key (Hash.chainAt s (hashFunction key % HASH_SIZE)) <;> simp

omit [DecidableEq K] in
theorem RemoveAtIndex_nodeList_none (s t : Hash K V) (index : HashIndex) (r : Bool)
    (h : Hash.RemoveAtIndex s index = some (r, t)) :
    t.nodeList = none ↔ s.nodeList = none := by
  rcases RemoveAtIndex_shape s t index r h with ⟨_, ht⟩ | ⟨_, nl, c, hnl, _, _, ht⟩
  · rw [ht]
  · rw [ht, hnl]
    simp

omit [DecidableEq K] in
theorem Push_nodeList (s : Hash K V) (key : K) (input : V) :
    (Hash.Push HASH_SIZE hashFunction s key input).nodeList ≠ none := by
  rw [Push_eq]
  simp

omit [DecidableEq K] in
theorem Clear_nodeList (s : Hash K V) : (Hash.Clear HASH_SIZE s).nodeList = none := by
  cases s with
  | mk nodeList size =>
    cases nodeList <;> simp [Hash.Clear]

/-- Along a run the bucket array is unallocated at the end exactly when it was
unallocated at the start and the run held no `Push` call. -/
theorem run_nodeList_none (calls : List (Call K V)) :
    ∀ (s t : Hash K V) (p0 r0 p r : Nat),
      Hash.run HASH_SIZE hashFunction s p0 r0 calls = some (t, p, r) →
      p0 ≤ p ∧ (t.nodeList = none ↔ s.nodeList = none ∧ p = p0) := by
  induction calls with
  | nil =>
    intro s t p0 r0 p r h
    simp only [Hash.run, Option.some.injEq, Prod.mk.injEq] at h
    obtain ⟨hs, hp, _⟩ := h
    subst hs hp
    exact ⟨Nat.le_refl _, by simp⟩
  | cons c cs ih =>
    intro s t p0 r0 p r h
    cases c with
    | Push key input =>
      simp only [Hash.run, Hash.call] at h
      obtain ⟨hle, hiff⟩ := ih _ t (p0 + 1) r0 p r h
      have hpush := Push_nodeList HASH_SIZE hashFunction s key input
      refine ⟨by omega, ?_⟩
      constructor
      · intro ht
        exact absurd (hiff.1 ht).1 hpush
      · rintro ⟨_, hp⟩
        omega
    | Pop out key =>
      simp only [Hash.run, Hash.call] at h
      obtain ⟨hle, hiff⟩ := ih _ t p0 _ p r h
      rw [Pop_nodeList_none] at hiff
      exact ⟨hle, hiff⟩
    | Remove key =>
      cases hrem : Hash.Remove HASH_SIZE hashFunction s key with
      | none => simp [Hash.run, Hash.call, hrem] at h
      | some x =>
        obtain ⟨b, u⟩ := x
        simp only [Hash.run, Hash.call, hrem] at h
        obtain ⟨hle, hiff⟩ := ih u t p0 _ p r h
        rw [RemoveAtIndex_nodeList_none s u _ b hrem] at hiff
        exact ⟨hle, hiff⟩
    | RemoveAtIndex index =>
      cases hrem : Hash.RemoveAtIndex s index with
      | none => simp [Hash.run, Hash.call, hrem] at h
      | some x =>
        obtain ⟨b, u⟩ := x
        simp only [Hash.run, Hash.call, hrem] at h
        obtain ⟨hle, hiff⟩ := ih u t p0 _ p r h
        rw [RemoveAtIndex_nodeList_none s u index b hrem] at hiff
        exact ⟨hle, hiff⟩

/-- C18. Allocation status changes only by `Push` and `Clear`: `Push` always leaves
the bucket array allocated and `Clear` always leaves it unallocated; `Pop`, `Remove`
and `RemoveAtIndex` leave it allocated when it was and unallocated when it was,
whatever they do to `Size()`; and at the end of any sequence of `Push`, `Pop`, `Remove`
and `RemoveAtIndex` calls the array is unallocated exactly when it was unallocated at
the start and the sequence held no `Push`. (`Peek`, `HasData`, `GetIndexOf` and
`GetAsList` assign no data member; they return no object here.) -/
theorem allocation_changes_only_by_Push_and_Clear (s : Hash K V) :
    (∀ (key : K) (input : V),
        (Hash.Push HASH_SIZE hashFunction s key input).nodeList ≠ none)
      ∧ (Hash.Clear HASH_SIZE s).nodeList = none
      ∧ (∀ (out : V) (key : K),
          (Hash.Pop HASH_SIZE hashFunction s out key).2.2.nodeList = none
            ↔ s.nodeList = none)
      ∧ (∀ (key : K) (r : Bool) (t : Hash K V),
          Hash.Remove HASH_SIZE hashFunction s key = some (r, t) →
            (t.nodeList = none ↔ s.nodeList = none))
      ∧ (∀ (index : HashIndex) (r : Bool) (t : Hash K V),
          Hash.RemoveAtIndex s index = some (r, t) →
            (t.nodeList = none ↔ s.nodeList = none))
      ∧ (∀ (calls : List (Call K V)) (t : Hash K V) (pushes removed : Nat),
          Hash.run HASH_SIZE hashFunction s 0 0 calls = some (t, pushes, removed) →
            (t.nodeList = none ↔ s.nodeList = none ∧ pushes = 0)) :=
  ⟨fun key input => Push_nodeList HASH_SIZE hashFunction s key input,
    Clear_nodeList HASH_SIZE s,
    fun out key => Pop_nodeList_none HASH_SIZE hashFunction s out key,
    fun _ r t hrem => RemoveAtIndex_nodeList_none s t _ r hrem,
    fun index r t hrem => RemoveAtIndex_nodeList_none s t index r hrem,
    fun calls t pushes removed hrun =>
      (run_nodeList_none HASH_SIZE hashFunction calls s t 0 0 pushes removed hrun).2⟩

theorem allocation_changes_only_by_Push_and_Clear_witness :
    ((∀ (key : Nat) (input : String),
        (Hash.Push 4 Sample.hash Sample.one key input).nodeList ≠ none)
      ∧ (Hash.Clear 4 Sample.one).nodeList = none
      ∧ (∀ (out : String) (key : Nat),
          (Hash.Pop 4 Sample.hash Sample.one out key).2.2.nodeList = none
            ↔ Sample.one.nodeList = none)
      ∧ (∀ (key : Nat) (r : Bool) (t : Hash Nat String),
          Hash.Remove 4 Sample.hash Sample.one key = some (r, t) →
            (t.nodeList = none ↔ Sample.one.nodeList = none))
      ∧ (∀ (index : HashIndex) (r : Bool) (t : Hash Nat String),
          Hash.RemoveAtIndex Sample.one index = some (r, t) →
            (t.nodeList = none ↔ Sample.one.nodeList = none))
      ∧ (∀ (calls : List (Call Nat String)) (t : Hash Nat String) (pushes removed : Nat),
          Hash.run 4 Sample.hash Sample.one 0 0 calls = some (t, pushes, removed) →
            (t.nodeList = none ↔ Sample.one.nodeList = none ∧ pushes = 0)))
      ∧ Hash.Pop 4 Sample.hash Sample.one "" 5
          = (true, "b", ⟨some [[], [], [], []], 0⟩) :=
  ⟨allocation_changes_only_by_Push_and_Clear 4 Sample.hash Sample.one, by decide⟩

omit [DecidableEq K] in
theorem GetAsList_eq (s : Hash K V) (hsome : s.nodeList ≠ none)
    (itemList : List V) (keyList : List K) :
    Hash.GetAsList HASH_SIZE s itemList keyList
      = (((List.range HASH_SIZE).flatMap (Hash.chainAt s)).map Node.data,
          ((List.range HASH_SIZE).flatMap (Hash.chainAt s)).map Node.string) := by
  cases s with
  | mk nodeList size =>
    cases nodeList with
    | none => exact absurd rfl hsome
    | some nl =>
      simp only [Hash.GetAsList, ListClear, GetAsList_loop_eq, List.nil_append]
      rfl

/-- C19. Lookup is complete with respect to the exported contents: in every reachable
state in which the bucket array is allocated, for every key, `HasData(key)` is true if
and only if a key equal to `key` occurs in the key sequence produced by `GetAsList`. -/
theorem HasData_iff_key_exported (hpos : 0 < HASH_SIZE) (hmax : HASH_SIZE ≤ SIZE_MAX)
    (s : Hash K V) (h : Hash.Reachable HASH_SIZE hashFunction s)
    (hsome : s.nodeList ≠ none) (key : K) (itemList : List V) (keyList : List K) :
    Hash.HasData HASH_SIZE hashFunction s key = true
      ↔ key ∈ (Hash.GetAsList HASH_SIZE s itemList keyList).2 := by
  have hbucket := Reachable_bucket HASH_SIZE hashFunction hpos hmax s h
  rw [HasData_iff HASH_SIZE hashFunction hpos hmax, GetAsList_eq HASH_SIZE s hsome]
  simp only [List.mem_map, List.mem_flatMap, List.mem_range]
  constructor
  · rintro ⟨node, hmem, hk⟩
    exact ⟨node, ⟨hashFunction key % HASH_SIZE, Nat.mod_lt _ hpos, hmem⟩, hk⟩
  · rintro ⟨node, ⟨i, _, hmem⟩, hk⟩
    have hi := hbucket i node hmem
    rw [hk] at hi
    rw [hi]
    exact ⟨node, hmem, hk⟩

theorem HasData_iff_key_exported_witness :
    Hash.HasData 4 Sample.hash Sample.mixed 2 = true
      ↔ 2 ∈ (Hash.GetAsList 4 Sample.mixed ["x"] [7]).2 :=
  HasData_iff_key_exported 4 Sample.hash (by decide) (by decide) Sample.mixed
    Reachable_mixed (by decide) 2 ["x"] [7]

end

end DataStructures
